import Mathlib

/-!
Verification of the `cabal` repository: a shallow embedding of the
`ppm-table` crate (symmetric similarity table with completeness-checked
builder) and of the `cabal` binary (cliques, clique sets, diff exports and
the threshold-evolution driver), together with theorems settling the
specification claims.

Modelling conventions:
* Rust `u32`/`usize` values are modelled as `Nat`; the only subtraction
  (`r_idx - l_idx - 1` in `PpmTable::table_indices_from_strs`) is modelled
  with its overflow-checked semantics, an explicit panic outcome.
* `HashMap` and `BiHashMap` are modelled as association lists, `HashSet`
  as a duplicate-free list; list order stands for one realizable hash
  iteration order (Rust hash iteration order is arbitrary).
* Rust `&str` ordering is byte-lexicographic; on UTF-8 data this agrees
  with codepoint-lexicographic order, which `lexLt` implements on
  `String.data` (Lean's own `String.lt` is not kernel-reducible).
* Rust's stable sorts (`slice::sort`, `sort_by`, `sort_by_key`) are
  modelled by `List.insertionSort`, which is also a stable sort, hence
  produces the identical output for the identical comparator.
-/

set_option autoImplicit false
set_option linter.unusedVariables false
set_option linter.unnecessarySeqFocus false

namespace Spec2

/-! ### String ordering (Rust `Ord` for `&str`) -/

/-- Lexicographic strict order on codepoint lists; on UTF-8 strings this
coincides with Rust's byte-lexicographic `Ord` for `str`. -/
def lexLt : List Char → List Char → Bool
  | [], [] => false
  | [], _ :: _ => true
  | _ :: _, [] => false
  | a :: as, b :: bs => if a < b then true else if b < a then false else lexLt as bs

/-- Rust `l < r` on names. -/
def nameLt (a b : String) : Bool := lexLt a.data b.data

/-- Rust `l <= r` on names (total order, so `a <= b` iff `!(b < a)`). -/
def nameLe (a b : String) : Bool := !(nameLt b a)

theorem lexLt_irrefl : ∀ l : List Char, lexLt l l = false := by
  intro l
  induction l with
  | nil => rfl
  | cons a t ih => simp [lexLt, ih]

theorem lexLt_asymm : ∀ {a b : List Char}, lexLt a b = true → lexLt b a = false := by
  intro a
  induction a with
  | nil => intro b h; cases b <;> simp_all [lexLt]
  | cons x xs ih =>
    intro b h
    cases b with
    | nil => simp_all [lexLt]
    | cons y ys =>
      simp only [lexLt] at h ⊢
      rcases lt_trichotomy x y with hxy | hxy | hxy
      · simp [hxy, lt_asymm hxy]
      · subst hxy
        simp only [lt_irrefl, if_false] at h ⊢
        exact ih h
      · simp [hxy, lt_asymm hxy] at h

theorem lexLt_eq_of_not_lt : ∀ {a b : List Char},
    lexLt a b = false → lexLt b a = false → a = b := by
  intro a
  induction a with
  | nil => intro b h1 h2; cases b <;> simp_all [lexLt]
  | cons x xs ih =>
    intro b h1 h2
    cases b with
    | nil => simp_all [lexLt]
    | cons y ys =>
      simp only [lexLt] at h1 h2
      rcases lt_trichotomy x y with hxy | hxy | hxy
      · simp [hxy] at h1
      · subst hxy
        simp only [lt_irrefl, if_false] at h1 h2
        exact congrArg₂ List.cons rfl (ih h1 h2)
      · simp [hxy] at h2

theorem lexLt_trans : ∀ {a b c : List Char},
    lexLt a b = true → lexLt b c = true → lexLt a c = true := by
  intro a
  induction a with
  | nil =>
    intro b c h1 h2
    cases b with
    | nil => simp_all [lexLt]
    | cons y ys => cases c <;> simp_all [lexLt]
  | cons x xs ih =>
    intro b c h1 h2
    cases b with
    | nil => simp_all [lexLt]
    | cons y ys =>
      cases c with
      | nil => simp_all [lexLt]
      | cons z zs =>
        simp only [lexLt] at h1 h2 ⊢
        rcases lt_trichotomy x y with hxy | hxy | hxy
        · rcases lt_trichotomy y z with hyz | hyz | hyz
          · have hxz : x < z := lt_trans hxy hyz
            simp [hxz]
          · subst hyz; simp [hxy]
          · simp [hyz, lt_asymm hyz] at h2
        · subst hxy
          rcases lt_trichotomy x z with hxz | hxz | hxz
          · simp [hxz]
          · subst hxz
            simp only [lt_irrefl, if_false] at h1 h2 ⊢
            exact ih h1 h2
          · simp [hxz, lt_asymm hxz] at h2
        · simp [hxy, lt_asymm hxy] at h1

theorem nameLt_irrefl (a : String) : nameLt a a = false := lexLt_irrefl a.data

theorem nameLt_asymm {a b : String} (h : nameLt a b = true) : nameLt b a = false :=
  lexLt_asymm h

theorem nameLt_trans {a b c : String} (h1 : nameLt a b = true) (h2 : nameLt b c = true) :
    nameLt a c = true := lexLt_trans h1 h2

theorem nameLt_eq_of_not_lt {a b : String} (h1 : nameLt a b = false)
    (h2 : nameLt b a = false) : a = b := by
  cases a; cases b
  exact congrArg String.mk (lexLt_eq_of_not_lt h1 h2)

theorem nameLe_iff {a b : String} : nameLe a b = true ↔ nameLt b a = false := by
  simp [nameLe]

theorem nameLe_total (a b : String) : nameLe a b = true ∨ nameLe b a = true := by
  by_cases h : nameLt b a = true
  · right; rw [nameLe_iff]; exact nameLt_asymm h
  · left; rw [nameLe_iff]; simpa using h

theorem nameLe_trans {a b c : String} (h1 : nameLe a b = true) (h2 : nameLe b c = true) :
    nameLe a c = true := by
  rw [nameLe_iff] at h1 h2 ⊢
  by_cases h : nameLt c a = true
  · by_cases hbc : nameLt b c = true
    · have hba := nameLt_trans hbc h
      simp [hba] at h1
    · simp only [Bool.not_eq_true] at hbc
      have hb : b = c := nameLt_eq_of_not_lt hbc h2
      rw [← hb] at h
      simp [h] at h1
  · simpa using h

theorem nameLe_antisymm {a b : String} (h1 : nameLe a b = true) (h2 : nameLe b a = true) :
    a = b := by
  rw [nameLe_iff] at h1 h2
  exact nameLt_eq_of_not_lt h2 h1

theorem nameLe_of_lt {a b : String} (h : nameLt a b = true) : nameLe a b = true := by
  rw [nameLe_iff]; exact nameLt_asymm h

theorem nameLt_or_ge (a b : String) : nameLt a b = true ∨ nameLe b a = true := by
  by_cases h : nameLt a b = true
  · left; exact h
  · right; rw [nameLe_iff]; simpa using h

/-! ### Association-list models of the Rust hash containers -/

/-- Model of `HashMap::get`: value of the first entry with the given key. -/
def lookupA {κ : Type} {α : Type} [DecidableEq κ] (xs : List (κ × α)) (k : κ) : Option α :=
  (xs.find? (fun p => decide (p.1 = k))).map Prod.snd

/-- Model of `HashMap::insert`: overwrite in place when the key is present,
append a fresh entry otherwise. -/
def insertA {κ α : Type} [DecidableEq κ] : List (κ × α) → κ → α → List (κ × α)
  | [], k, v => [(k, v)]
  | (k1, v1) :: t, k, v =>
    if k1 = k then (k, v) :: t else (k1, v1) :: insertA t k v

/-- Model of `HashSet::insert`. -/
def insertS {κ : Type} [DecidableEq κ] (xs : List κ) (k : κ) : List κ :=
  if k ∈ xs then xs else xs ++ [k]

/-- Model of `HashMap::remove` (dropping the entry). -/
def removeA {κ α : Type} [DecidableEq κ] (xs : List (κ × α)) (k : κ) : List (κ × α) :=
  xs.filter (fun p => decide (p.1 ≠ k))

theorem lookupA_nil {κ α : Type} [DecidableEq κ] (k : κ) :
    lookupA ([] : List (κ × α)) k = none := rfl

theorem lookupA_cons {κ α : Type} [DecidableEq κ] (k1 : κ) (v1 : α) (t : List (κ × α))
    (k2 : κ) : lookupA ((k1, v1) :: t) k2 = if k1 = k2 then some v1 else lookupA t k2 := by
  by_cases h : k1 = k2 <;> simp [lookupA, List.find?, h]

theorem lookupA_insertA {κ α : Type} [DecidableEq κ] (xs : List (κ × α)) (k k2 : κ) (v : α) :
    lookupA (insertA xs k v) k2 = if k2 = k then some v else lookupA xs k2 := by
  induction xs with
  | nil =>
    by_cases h : k2 = k
    · subst h; simp [insertA, lookupA_cons]
    · simp [insertA, lookupA_cons, Ne.symm h, h, lookupA_nil]
  | cons p t ih =>
    obtain ⟨k1, v1⟩ := p
    by_cases h1 : k1 = k
    · subst h1
      by_cases h : k2 = k1
      · subst h; simp [insertA, lookupA_cons]
      · simp [insertA, lookupA_cons, h, Ne.symm h]
    · by_cases h : k2 = k1
      · subst h
        simp [insertA, h1, lookupA_cons]
      · simp [insertA, h1, lookupA_cons, Ne.symm h, h, ih]

theorem mem_insertS {κ : Type} [DecidableEq κ] (xs : List κ) (k a : κ) :
    a ∈ insertS xs k ↔ a ∈ xs ∨ a = k := by
  by_cases h : k ∈ xs
  · simp only [insertS, if_pos h]
    constructor
    · exact Or.inl
    · rintro (ha | rfl)
      · exact ha
      · exact h
  · simp [insertS, if_neg h]

theorem nodup_insertS {κ : Type} [DecidableEq κ] (xs : List κ) (k : κ) (h : xs.Nodup) :
    (insertS xs k).Nodup := by
  by_cases hk : k ∈ xs
  · simpa [insertS, hk] using h
  · simp only [insertS, if_neg hk]
    simpa [List.nodup_append] using ⟨h, fun ha => hk ha⟩

/-! ### The `ppm-table` crate (src/ppm-table/src/lib.rs) -/

/-- Canonicalization used throughout: `if l < r { (l, r) } else { (r, l) }`. -/
def canonPair (l r : String) : String × String :=
  if nameLt l r = true then (l, r) else (r, l)

/-- `PpmTableBuilder`: `ppms: HashMap<String, HashMap<String, u32>>` plus
`keys: HashSet<String>`, both as association lists. -/
structure PpmTableBuilder where
  ppms : List (String × List (String × Nat))
  keys : List String
deriving DecidableEq, Repr

namespace PpmTableBuilder

/-- `PpmTableBuilder::new`. -/
def new : PpmTableBuilder := ⟨[], []⟩

/-- `PpmTableBuilder::add_ppm`: canonicalize the pair, register both names,
record the score (last write wins). -/
def add_ppm (b : PpmTableBuilder) (l r : String) (ppm : Nat) : PpmTableBuilder :=
  let p := canonPair l r
  { ppms := insertA b.ppms p.1 (insertA ((lookupA b.ppms p.1).getD []) p.2 ppm)
    keys := insertS (insertS b.keys p.1) p.2 }

/-- `PpmTableBuilder::data_is_complete`: every `l < r` pair of known keys
must have a recorded score. -/
def data_is_complete (b : PpmTableBuilder) : Bool :=
  b.keys.all fun l => b.keys.all fun r =>
    if nameLt l r = true then
      match lookupA b.ppms l with
      | none => false
      | some row => (lookupA row r).isSome
    else true

/-- `PpmTableBuilder::sorted_keys`: the key set sorted ascending (stable
sort of a duplicate-free list). -/
def sorted_keys (keys : List String) : List String :=
  keys.insertionSort (fun a b => nameLe a b = true)

/-- Read of `self.ppms[l][r]` in `populate_ppm_table`; the Rust `Index`
operator panics when the entry is absent, which `build` rules out through
`data_is_complete`, so the default value is never produced on the path
exercised by `build`. -/
def ppmsAt (ppms : List (String × List (String × Nat))) (l r : String) : Nat :=
  (((lookupA ppms l).getD []).find? (fun p => decide (p.1 = r))).map Prod.snd |>.getD 0

/-- `PpmTableBuilder::generate_ppm_table` (allocate + populate): row `i`
holds the scores `ppms[l][r]` for all `j > i` in sorted-key order. -/
def generate_ppm_table (sorted : List String)
    (ppms : List (String × List (String × Nat))) : List (List Nat) :=
  sorted.enum.map fun il =>
    sorted.enum.filterMap fun jr =>
      if il.1 < jr.1 then some (ppmsAt ppms il.2 jr.2) else none

/-- `PpmTableBuilder::indices_from_sorted_keys`: the name-to-index
bijection, key `k` at sorted position `i`. -/
def indices_from_sorted_keys (sorted : List String) : List (String × Nat) :=
  sorted.enum.map fun p => (p.2, p.1)

end PpmTableBuilder

/-- `PpmTable`: the packed upper-triangular score matrix plus the
name-to-index bijection. -/
structure PpmTable where
  ppm_table : List (List Nat)
  indices : List (String × Nat)
deriving DecidableEq, Repr

namespace PpmTable

/-- `BiHashMap::get_by_left`. -/
def getByLeft (idx : List (String × Nat)) (s : String) : Option Nat :=
  (idx.find? (fun p => decide (p.1 = s))).map Prod.snd

/-- `BiHashMap::get_by_right`. -/
def getByRight (idx : List (String × Nat)) (i : Nat) : Option String :=
  (idx.find? (fun p => decide (p.2 = i))).map Prod.fst

/-- Outcome of `PpmTable::get_ppm`: a score, `None` (unknown name), or a
panic (the `r_idx - l_idx - 1` underflow, or a `Vec` index out of
bounds). -/
inductive Lookup where
  | found : Nat → Lookup
  | notFound : Lookup
  | panicked : Lookup
deriving DecidableEq, Repr

/-- `PpmTable::get_ppm` composed with `table_indices_from_strs`: the pair is
canonicalized, both names converted to indices (`None` when either name is
unknown), then `ppm_table[l_idx][r_idx - l_idx - 1]` is read.  The `usize`
subtraction is modelled with checked semantics: when `r_idx < l_idx + 1` it
underflows and the lookup panics (in a release build the wrapped index
overruns the row and the `Vec` indexing panics instead; either way the call
never returns). -/
def get_ppm (t : PpmTable) (l r : String) : Lookup :=
  let p := canonPair l r
  match getByLeft t.indices p.1, getByLeft t.indices p.2 with
  | some li, some ri =>
    if ri < li + 1 then Lookup.panicked
    else
      match t.ppm_table[li]? with
      | none => Lookup.panicked
      | some row =>
        match row[ri - li - 1]? with
        | none => Lookup.panicked
        | some ppm => Lookup.found ppm
  | _, _ => Lookup.notFound

/-- `PpmTable::edges`: enumerate `(i, j, ppm)` over the triangular matrix
and convert indices `i` and `j + i + 1` back to names.  The Rust
`strs_from_table_indices` panics (`expect`) when an index is missing from
the bijection; that cannot happen for a table made by the builder, and is
modelled by a default name. -/
def edges (t : PpmTable) : List (String × String × Nat) :=
  (t.ppm_table.enum.flatMap fun iv =>
    iv.2.enum.map fun jp => (iv.1, jp.1, jp.2)).map fun e =>
      ((getByRight t.indices e.1).getD "", (getByRight t.indices (e.2.1 + e.1 + 1)).getD "",
        e.2.2)

/-- `PartialEq for PpmTable`: the two `HashSet`s of edge triples are equal,
i.e. the edge lists have the same members. -/
def tablesEq (t1 t2 : PpmTable) : Prop :=
  ∀ e : String × String × Nat, e ∈ t1.edges ↔ e ∈ t2.edges

end PpmTable

namespace PpmTableBuilder

/-- `PpmTableBuilder::build`: check completeness; on failure return the
builder itself unchanged, on success freeze the sorted keys into the table
and the bijection. -/
def build (b : PpmTableBuilder) : Except PpmTableBuilder PpmTable :=
  if b.data_is_complete = true then
    Except.ok
      { ppm_table := generate_ppm_table (sorted_keys b.keys) b.ppms
        indices := indices_from_sorted_keys (sorted_keys b.keys) }
  else Except.error b

end PpmTableBuilder

/-- Observation of the builder state: the score currently recorded for the
unordered pair, read the way `data_is_complete` reads it but through the
canonicalization of `add_ppm`. -/
def builderGet (b : PpmTableBuilder) (l r : String) : Option Nat :=
  let p := canonPair l r
  (lookupA b.ppms p.1).bind fun row => lookupA row p.2

/-- The last score written for the canonical pair `p` by a sequence of
`add_ppm` calls (`None` if the pair was never written). -/
def lastWrite (adds : List (String × String × Nat)) (p : String × String) : Option Nat :=
  adds.foldl (fun acc e => if canonPair e.1 e.2.1 = p then some e.2.2 else acc) none

/-- The builder obtained by replaying a sequence of `add_ppm` calls on a
fresh builder. -/
def builderOf (adds : List (String × String × Nat)) : PpmTableBuilder :=
  adds.foldl (fun b e => b.add_ppm e.1 e.2.1 e.2.2) PpmTableBuilder.new

/-! ### The `cabal` binary: cliques (src/cabal/src/clique.rs) -/

/-- petgraph `GraphMap::edge_key` for an undirected graph: order the pair
ascending. -/
def edgeKey (l r : String) : String × String :=
  if nameLe l r = true then (l, r) else (r, l)

/-- `Clique`: a petgraph `UnGraphMap<&str, u32>` plus the numeric
identifier.  The graph is modelled as the node list in insertion order and
the association list from canonical node pair to edge weight in insertion
order (petgraph backs both by `IndexMap`, which iterates in insertion
order). -/
structure Clique where
  nodes : List String
  edges : List ((String × String) × Nat)
  id : Nat
deriving DecidableEq, Repr

instance : Inhabited Clique := ⟨⟨[], [], 0⟩⟩

namespace Clique

/-- `Clique::add`, i.e. `GraphMap::add_edge`: replace the weight when the
canonical edge key is already present, otherwise append the edge and
insert the endpoints (left first) as nodes. -/
def add (c : Clique) (l r : String) (ppm : Nat) : Clique :=
  if (lookupA c.edges (edgeKey l r)).isSome then
    { c with edges := insertA c.edges (edgeKey l r) ppm }
  else
    { nodes := insertS (insertS c.nodes l) r
      edges := c.edges ++ [(edgeKey l r, ppm)]
      id := c.id }

/-- `Clique::new`: a fresh clique holding just the given edge. -/
def new (l r : String) (ppm : Nat) (id : Nat) : Clique :=
  Clique.add ⟨[], [], id⟩ l r ppm

/-- `Clique::contains`. -/
def containsName (c : Clique) (n : String) : Bool := decide (n ∈ c.nodes)

/-- `Clique::merge`: replay the other clique's edges (in its insertion
order) into this clique. -/
def merge (c : Clique) (o : Clique) : Clique :=
  o.edges.foldl (fun acc e => acc.add e.1.1 e.1.2 e.2) c

/-- The maximum score among the edges incident to `n`
(`self.members.edges(node).map(ppm).max().unwrap_or(0)` in `core`). -/
def maxIncident (c : Clique) (n : String) : Nat :=
  (c.edges.filterMap fun e =>
    if e.1.1 = n ∨ e.1.2 = n then some e.2 else none).foldl max 0

/-- `Clique::core`: scan the nodes in iteration order keeping the node with
the smallest maximum incident score, break ties toward the
lexicographically smaller name.  Rust unwraps the accumulator (panics on
an empty clique); the model returns `none` there. -/
def core (c : Clique) : Option String :=
  (c.nodes.foldl (fun best n =>
    let m := maxIncident c n
    match best with
    | none => some (m, n)
    | some (bm, bn) =>
      if m < bm ∨ (m = bm ∧ nameLt n bn = true) then some (m, n) else some (bm, bn))
    none).map Prod.snd

/-- `Clique::max_ppm`: greatest edge weight, `0` for an edgeless clique. -/
def max_ppm (c : Clique) : Nat :=
  (c.edges.map Prod.snd).foldl max 0

end Clique

/-- `CliqueExport`: core name, the remaining members, the maximum edge
weight.  Equality is the derived structural one (field-wise). -/
structure CliqueExport where
  core : String
  non_core_members : List String
  max_ppm : Nat
deriving DecidableEq, Repr

/-- `CliqueExport::cmp_ppm`: compare by maximum weight only. -/
def CliqueExport.cmp_ppm (a b : CliqueExport) : Ordering :=
  compare a.max_ppm b.max_ppm

/-- `Clique::export`: the core, the other members in node iteration order,
and the maximum edge weight.  The Rust code unwraps `core()` (panics on an
empty clique, which never occurs for cliques held in a `Cliques` set); the
model substitutes a default name there. -/
def Clique.export (c : Clique) : CliqueExport :=
  let coreName := c.core.getD ""
  { core := coreName
    non_core_members := c.nodes.filter fun n => decide (n ≠ coreName)
    max_ppm := c.max_ppm }

/-! ### Clique sets (src/cabal/src/cliques.rs) -/

/-- `Cliques`: `HashMap<usize, Clique>` (modelled as an association list in
one realizable iteration order) plus the next fresh identifier. -/
structure Cliques where
  cliques : List (Nat × Clique)
  base_id : Nat
deriving DecidableEq, Repr

namespace Cliques

/-- `Cliques::new`. -/
def new (base : Nat) : Cliques := ⟨[], base⟩

/-- `Cliques::find_id_of_clique_containing`: the id of the first clique (in
map iteration order) containing the name. -/
def find_id_of_clique_containing (s : Cliques) (n : String) : Option Nat :=
  (s.cliques.find? fun q => q.2.containsName n).map fun q => q.2.id

/-- In-place update of the clique stored under key `k`
(`self.cliques.get_mut(&k)`). -/
def updateC (xs : List (Nat × Clique)) (k : Nat) (f : Clique → Clique) :
    List (Nat × Clique) :=
  xs.map fun q => if q.1 = k then (q.1, f q.2) else q

/-- `Cliques::add` — the four cases: merge two distinct cliques, extend a
single clique (three sub-cases), or create a fresh clique under the next
identifier.  `remove(&rc).unwrap()` is modelled by a default clique; under
the map invariant (key = clique id) the entry is always present. -/
def add (s : Cliques) (l r : String) (ppm : Nat) : Cliques :=
  match s.find_id_of_clique_containing l, s.find_id_of_clique_containing r with
  | some lc, some rc =>
    if lc ≠ rc then
      { s with cliques :=
          (updateC (removeA s.cliques rc) lc
            (fun c => (c.merge ((lookupA s.cliques rc).getD default)).add l r ppm)) }
    else
      { s with cliques := updateC s.cliques lc (fun c => c.add l r ppm) }
  | some lc, none => { s with cliques := updateC s.cliques lc (fun c => c.add l r ppm) }
  | none, some rc => { s with cliques := updateC s.cliques rc (fun c => c.add l r ppm) }
  | none, none =>
    { cliques := s.cliques ++ [(s.base_id, Clique.new l r ppm s.base_id)]
      base_id := s.base_id + 1 }

end Cliques

/-- `CliquesExportElement`: `New(CliqueExport)` or
`Old { clique, merged, added }` (here positional: clique, merged, added). -/
inductive CliquesExportElement where
  | New : CliqueExport → CliquesExportElement
  | Old : CliqueExport → List CliqueExport → List String → CliquesExportElement
deriving DecidableEq, Repr

namespace CliquesExportElement

/-- `CliquesExportElement::clique`. -/
def clique : CliquesExportElement → CliqueExport
  | .New c => c
  | .Old c _ _ => c

/-- `CliquesExportElement::cmp_ppm`: every `Old` sorts before every `New`;
within a kind, compare the export's maximum weight. -/
def cmp_ppm : CliquesExportElement → CliquesExportElement → Ordering
  | .New _, .Old _ _ _ => .gt
  | .Old _ _ _, .New _ => .lt
  | a, b => compare a.clique.max_ppm b.clique.max_ppm

end CliquesExportElement

/-- `CliquesExport`. -/
structure CliquesExport where
  cliques : List CliquesExportElement
deriving DecidableEq, Repr

namespace Cliques

/-- `Cliques::merged_cliques`: for each member of `clique` find the first
prior clique containing it, collect the ids into a `HashSet` (modelled:
first-occurrence deduplication; hash-set iteration order is arbitrary),
export each and sort ascending by maximum weight. -/
def merged_cliques (other : Cliques) (c : Clique) : List CliqueExport :=
  (((c.nodes.filterMap fun n =>
      (other.cliques.find? fun q => q.2.containsName n).map fun q => q.2.id).foldl
        insertS []).map
    fun i => ((lookupA other.cliques i).getD default).export).insertionSort
    fun e1 e2 => (e1.cmp_ppm e2) ≠ Ordering.gt

/-- `Cliques::added_members`: members of `clique` contained in no prior
clique, sorted ascending. -/
def added_members (other : Cliques) (c : Clique) : List String :=
  (c.nodes.filter fun n => !(other.cliques.any fun q => q.2.containsName n)).insertionSort
    fun a b => nameLe a b = true

/-- The body of the loop in `Cliques::export`: classify one current clique
against the prior set. -/
def exportElem (other : Cliques) (c : Clique) : CliquesExportElement :=
  if (merged_cliques other c).isEmpty then CliquesExportElement.New c.export
  else
    CliquesExportElement.Old c.export (merged_cliques other c) (added_members other c)

end Cliques

/-- `Cliques::export`: classify every current clique then stable-sort by
`CliquesExportElement::cmp_ppm`. -/
def Cliques.export (s : Cliques) (other : Cliques) : CliquesExport :=
  ⟨(s.cliques.map fun q => Cliques.exportElem other q.2).insertionSort
    fun a b => (a.cmp_ppm b) ≠ Ordering.gt⟩

/-! ### The evolution driver (src/cabal/src/main.rs, lines 59-91) -/

/-- The `while ppm > max_ppm` loop of `main`, with its termination measure
`ppm - maxPpm` made explicit as a structural fuel argument: each iteration
emits the export at the passed boundary, snapshots `prev := cliques`, and
steps the boundary by 10000.  `fuel = 0` implies `ppm ≤ maxPpm` on every
call reached from `bump`, so the fuel never cuts the loop short. -/
def bumpGo : Nat → Nat → Nat → Cliques → Cliques → List (Nat × CliquesExport) →
    Nat × Cliques × List (Nat × CliquesExport)
  | 0, _, maxPpm, prev, _, out => (maxPpm, prev, out)
  | fuel + 1, ppm, maxPpm, prev, cur, out =>
    if ppm > maxPpm then
      bumpGo fuel ppm (maxPpm + 10000) cur cur (out ++ [(maxPpm, cur.export prev)])
    else (maxPpm, prev, out)

/-- The `while ppm > max_ppm` loop of `main`. -/
def bump (ppm maxPpm : Nat) (prev cur : Cliques) (out : List (Nat × CliquesExport)) :
    Nat × Cliques × List (Nat × CliquesExport) :=
  bumpGo (ppm - maxPpm) ppm maxPpm prev cur out

/-- The `for (l, r, ppm) in sorted_ppm_table_edges` loop of `main`.  The
regex-based path-to-identifier normalization is modelled as the identity on
names (the spec treats identifier extraction as an external collaborator
of the core). -/
def runEdges : List (String × String × Nat) → Nat → Cliques → Cliques →
    List (Nat × CliquesExport) → Nat × Cliques × Cliques × List (Nat × CliquesExport)
  | [], maxPpm, prev, cur, out => (maxPpm, prev, cur, out)
  | e :: rest, maxPpm, prev, cur, out =>
    let b := bump e.2.2 maxPpm prev cur out
    runEdges rest b.1 b.2.1 (cur.add e.1 e.2.1 e.2.2) b.2.2

/-- The evolution driver of `main`: filter the table's edges to scores at
most `ppmLimit` (`args.max_similarity * 10000`), stable-sort ascending by
score, run the boundary-walking loop from boundary 0 with empty current
and previous sets, and emit one final export at the loop's final
boundary.  Returns the emitted (boundary, export) list. -/
def driver (edges : List (String × String × Nat)) (ppmLimit : Nat) :
    List (Nat × CliquesExport) :=
  let sorted := (edges.filter fun e => decide (e.2.2 ≤ ppmLimit)).insertionSort
    fun a b => a.2.2 ≤ b.2.2
  let res := runEdges sorted 0 (Cliques.new 0) (Cliques.new 0) []
  res.2.2.2 ++ [(res.1, res.2.2.1.export res.2.1)]

/-- The final clique set held by the driver when the edge loop ends (the
state whose export is the last line printed). -/
def driverFinal (edges : List (String × String × Nat)) (ppmLimit : Nat) : Cliques :=
  let sorted := (edges.filter fun e => decide (e.2.2 ≤ ppmLimit)).insertionSort
    fun a b => a.2.2 ≤ b.2.2
  (runEdges sorted 0 (Cliques.new 0) (Cliques.new 0) []).2.2.1

/-! ### Derived definitions used by the theorems -/

/-- First-some choice on options (used to compose `lastWrite` across list
splits). -/
def orO (x y : Option Nat) : Option Nat :=
  match x with
  | some v => some v
  | none => y

/-- Replaying a sequence of `CliqueSet::add` calls on a fresh clique set
(the way every reachable `Cliques` value is produced). -/
def applyOps (base : Nat) (ops : List (String × String × Nat)) : Cliques :=
  ops.foldl (fun s e => s.add e.1 e.2.1 e.2.2) (Cliques.new base)

/-- Whether two cliques share at least one member name. -/
def Clique.intersects (q c : Clique) : Bool :=
  q.nodes.any fun n => decide (n ∈ c.nodes)

/-- Structural invariant of a single clique reachable through `Clique::add`
and `Clique::merge`: duplicate-free non-empty member list, every edge
endpoint a member, and every member an endpoint of some edge. -/
def Clique.WFc (c : Clique) : Prop :=
  c.nodes.Nodup ∧ c.nodes ≠ [] ∧
    (∀ e ∈ c.edges, e.1.1 ∈ c.nodes ∧ e.1.2 ∈ c.nodes) ∧
    (∀ n ∈ c.nodes, ∃ e ∈ c.edges, n = e.1.1 ∨ n = e.1.2)

/-- Structural invariant of a clique set reachable through `Cliques::add`:
each stored clique is well-formed and keyed by its own id, ids are below
the next fresh id and duplicate-free, and member sets are pairwise
disjoint. -/
def Cliques.WFs (s : Cliques) : Prop :=
  (∀ q ∈ s.cliques, q.2.id = q.1 ∧ q.1 < s.base_id ∧ Clique.WFc q.2) ∧
  (s.cliques.map Prod.fst).Nodup ∧
  s.cliques.Pairwise fun q1 q2 => ∀ n, n ∈ q1.2.nodes → n ∉ q2.2.nodes

/-- Strict lexicographic order on (max incident score, name) pairs: the
comparison made inside `Clique::core`. -/
def keyLt (p q : Nat × String) : Prop :=
  p.1 < q.1 ∨ (p.1 = q.1 ∧ nameLt p.2 q.2 = true)

/-- Reflexive closure companion of `keyLt`. -/
def keyLe (p q : Nat × String) : Prop :=
  p.1 < q.1 ∨ (p.1 = q.1 ∧ nameLe p.2 q.2 = true)

/-- The fold step inside `Clique::core`. -/
def coreStep (c : Clique) (best : Option (Nat × String)) (n : String) :
    Option (Nat × String) :=
  let m := Clique.maxIncident c n
  match best with
  | none => some (m, n)
  | some (bm, bn) =>
    if m < bm ∨ (m = bm ∧ nameLt n bn = true) then some (m, n) else some (bm, bn)

/-- Concrete run of C10: the two-name table built from the single edge
`("a", "b", 10)` panics on `get_ppm "a" "a"`. -/
def tableEx : PpmTable :=
  { ppm_table := [[10], []], indices := [("a", 0), ("b", 1)] }

/-- The clique whose member iteration order is not lexicographic: nodes
are inserted in the order c, b, a and the core is b. -/
def cliqueEx3 : Clique := (Clique.new "c" "b" 5 0).add "c" "a" 7

/-- Sort rank of an export element: `Old` entries sort before `New`. -/
def elemRank : CliquesExportElement → Nat
  | .Old _ _ _ => 0
  | .New _ => 1

/-! ### Basic facts about canonicalization and fold-max -/

theorem canonPair_of_lt {l r : String} (h : nameLt l r = true) : canonPair l r = (l, r) := by
  simp [canonPair, h]

theorem canonPair_of_not_lt {l r : String} (h : nameLt l r = false) :
    canonPair l r = (r, l) := by
  simp [canonPair, h]

theorem canonPair_symm (a b : String) : canonPair a b = canonPair b a := by
  unfold canonPair
  by_cases h : nameLt a b = true
  · simp [h, nameLt_asymm h]
  · simp only [Bool.not_eq_true] at h
    by_cases h2 : nameLt b a = true
    · simp [h, h2]
    · simp only [Bool.not_eq_true] at h2
      have := nameLt_eq_of_not_lt h h2
      subst this
      simp

theorem ne_of_nameLt {l r : String} (h : nameLt l r = true) : l ≠ r := by
  intro he
  subst he
  rw [nameLt_irrefl] at h
  cases h

theorem canonPair_fst_or (l r x : String) :
    (x = (canonPair l r).1 ∨ x = (canonPair l r).2) ↔ (x = l ∨ x = r) := by
  unfold canonPair
  by_cases h : nameLt l r = true <;> simp [h, or_comm]

theorem foldl_max_le_iff (l : List Nat) (a m : Nat) :
    l.foldl max a ≤ m ↔ a ≤ m ∧ ∀ x ∈ l, x ≤ m := by
  induction l generalizing a with
  | nil => simp
  | cons x t ih =>
    simp only [List.foldl_cons, ih, max_le_iff, List.mem_cons]
    constructor
    · rintro ⟨⟨h1, h2⟩, h3⟩
      exact ⟨h1, fun y hy => hy.elim (fun he => he ▸ h2) (h3 y)⟩
    · rintro ⟨h1, h2⟩
      exact ⟨⟨h1, h2 x (Or.inl rfl)⟩, fun y hy => h2 y (Or.inr hy)⟩

theorem init_le_foldl_max (l : List Nat) (a : Nat) : a ≤ l.foldl max a := by
  induction l generalizing a with
  | nil => exact le_refl a
  | cons x t ih => exact le_trans (le_max_left a x) (ih (max a x))

theorem le_foldl_max (l : List Nat) (x : Nat) (hx : x ∈ l) : ∀ a, x ≤ l.foldl max a := by
  induction l with
  | nil => cases hx
  | cons y t ih =>
    intro a
    rcases List.mem_cons.mp hx with rfl | hm
    · exact le_trans (le_max_right a x) (init_le_foldl_max t _)
    · simpa using ih hm (max a y)

theorem foldl_max_mem (l : List Nat) (a : Nat) : l.foldl max a = a ∨ l.foldl max a ∈ l := by
  induction l generalizing a with
  | nil => left; rfl
  | cons x t ih =>
    simp only [List.foldl_cons]
    rcases ih (max a x) with h | h
    · rcases max_choice a x with hm | hm
      · left; rw [h, hm]
      · right; rw [h, hm]; exact List.mem_cons_self x t
    · right; exact List.mem_cons_of_mem x h

/-! ### Claim C10: self-pair lookup on a known name panics -/

/-- C10: for every table and every name `a` known to the table, the inner
index computation of `get_ppm(a, a)` subtracts the name's index from itself
minus one, which underflows, so the lookup panics instead of returning a
score or `None`; `get_ppm` only returns an `Option`-like outcome when the
two argument names are distinct or unknown. -/
theorem claim_C10 (t : PpmTable) (a : String)
    (h : (PpmTable.getByLeft t.indices a).isSome = true) :
    t.get_ppm a a = PpmTable.Lookup.panicked := by
  obtain ⟨i, hi⟩ := Option.isSome_iff_exists.mp h
  have hc : canonPair a a = (a, a) := by
    simp [canonPair, nameLt_irrefl]
  simp [PpmTable.get_ppm, hc, hi]

theorem claim_C10_witness : tableEx.get_ppm "a" "a" = PpmTable.Lookup.panicked :=
  claim_C10 tableEx "a" (by decide)

/-! ### Claim C7: symmetric lookup -/

theorem get_ppm_symm (t : PpmTable) (a b : String) : t.get_ppm a b = t.get_ppm b a := by
  unfold PpmTable.get_ppm
  rw [canonPair_symm]

/-- C7: for every table produced by the builder and every two known
distinct names `a` and `b`, `get_ppm` canonicalizes the pair before
indexing, so looking up `(a, b)` returns the same result as `(b, a)`. -/
theorem claim_C7 (b0 : PpmTableBuilder) (t : PpmTable) (a b : String)
    (hb : b0.build = Except.ok t)
    (ha : (PpmTable.getByLeft t.indices a).isSome = true)
    (hbk : (PpmTable.getByLeft t.indices b).isSome = true)
    (hab : a ≠ b) :
    t.get_ppm a b = t.get_ppm b a :=
  get_ppm_symm t a b

theorem claim_C7_witness :
    tableEx.get_ppm "a" "b" = tableEx.get_ppm "b" "a" ∧
    tableEx.get_ppm "a" "b" = PpmTable.Lookup.found 10 :=
  ⟨claim_C7 (builderOf [("a", "b", 10)]) tableEx "a" "b" rfl (by decide) (by decide)
    (by decide), by decide⟩

/-! ### Claim C4: build succeeds exactly on complete data -/

theorem builderGet_symm (b : PpmTableBuilder) (l r : String) :
    builderGet b l r = builderGet b r l := by
  unfold builderGet
  rw [canonPair_symm]

theorem builderGet_of_lt (b : PpmTableBuilder) {l r : String} (h : nameLt l r = true) :
    builderGet b l r = (lookupA b.ppms l).bind fun row => lookupA row r := by
  unfold builderGet
  rw [canonPair_of_lt h]

theorem data_is_complete_iff (b : PpmTableBuilder) :
    b.data_is_complete = true ↔
      ∀ l ∈ b.keys, ∀ r ∈ b.keys, l ≠ r → (builderGet b l r).isSome = true := by
  have key : ∀ l r : String, nameLt l r = true →
      (((if nameLt l r = true then
          match lookupA b.ppms l with
          | none => false
          | some row => (lookupA row r).isSome
        else true) = true) ↔ (builderGet b l r).isSome = true) := by
    intro l r hlt
    rw [builderGet_of_lt b hlt, if_pos hlt]
    cases lookupA b.ppms l with
    | none => simp
    | some row => simp
  unfold PpmTableBuilder.data_is_complete
  simp only [List.all_eq_true]
  constructor
  · intro H l hl r hr hne
    rcases Bool.eq_false_or_eq_true (nameLt l r) with hlt | hlt
    · exact (key l r hlt).mp (H l hl r hr)
    · rcases Bool.eq_false_or_eq_true (nameLt r l) with hlt2 | hlt2
      · rw [builderGet_symm]
        exact (key r l hlt2).mp (H r hr l hl)
      · exact absurd (nameLt_eq_of_not_lt hlt hlt2) hne
  · intro H l hl r hr
    rcases Bool.eq_false_or_eq_true (nameLt l r) with hlt | hlt
    · exact (key l r hlt).mpr (H l hl r hr (ne_of_nameLt hlt))
    · simp [hlt]

/-- C4: for every builder state, `build()` succeeds and yields a table
exactly when every unordered pair of distinct names in the accumulated name
set has a recorded score; otherwise `build()` fails returning the
accumulator itself, unchanged. -/
theorem claim_C4 (b : PpmTableBuilder) :
    ((∃ t, b.build = Except.ok t) ↔
      ∀ l ∈ b.keys, ∀ r ∈ b.keys, l ≠ r → (builderGet b l r).isSome = true) ∧
    ((∀ l ∈ b.keys, ∀ r ∈ b.keys, l ≠ r → (builderGet b l r).isSome = true) ∨
      b.build = Except.error b) := by
  by_cases hc : b.data_is_complete = true
  · have hok : b.build = Except.ok
        { ppm_table :=
            PpmTableBuilder.generate_ppm_table (PpmTableBuilder.sorted_keys b.keys) b.ppms
          indices :=
            PpmTableBuilder.indices_from_sorted_keys (PpmTableBuilder.sorted_keys b.keys) } := by
      simp [PpmTableBuilder.build, hc]
    exact ⟨⟨fun _ => (data_is_complete_iff b).mp hc, fun _ => ⟨_, hok⟩⟩,
      Or.inl ((data_is_complete_iff b).mp hc)⟩
  · have herr : b.build = Except.error b := by
      simp [PpmTableBuilder.build, hc]
    refine ⟨⟨?_, fun h => absurd ((data_is_complete_iff b).mpr h) hc⟩, Or.inr herr⟩
    rintro ⟨t, ht⟩
    rw [herr] at ht
    cases ht

/-! ### The core computation of a clique (claims C5 and C3) -/

theorem nameLe_refl (a : String) : nameLe a a = true := by
  simp [nameLe, nameLt_irrefl]

theorem nameLt_of_le_ne {a b : String} (h : nameLe a b = true) (hne : a ≠ b) :
    nameLt a b = true := by
  rw [nameLe_iff] at h
  rcases Bool.eq_false_or_eq_true (nameLt a b) with h2 | h2
  · exact h2
  · exact absurd (nameLt_eq_of_not_lt h2 h) hne

theorem keyLe_refl (p : Nat × String) : keyLe p p := Or.inr ⟨rfl, nameLe_refl _⟩

theorem keyLe_trans {p q r : Nat × String} (h1 : keyLe p q) (h2 : keyLe q r) : keyLe p r := by
  rcases h1 with h1 | ⟨h1, h1n⟩ <;> rcases h2 with h2 | ⟨h2, h2n⟩
  · exact Or.inl (lt_trans h1 h2)
  · exact Or.inl (h2 ▸ h1)
  · exact Or.inl (h1 ▸ h2)
  · exact Or.inr ⟨h1.trans h2, nameLe_trans h1n h2n⟩

theorem keyLe_antisymm {p q : Nat × String} (h1 : keyLe p q) (h2 : keyLe q p) : p = q := by
  rcases h1 with h1 | ⟨h1, h1n⟩ <;> rcases h2 with h2 | ⟨h2, h2n⟩
  · omega
  · omega
  · omega
  · obtain ⟨p1, p2⟩ := p
    obtain ⟨q1, q2⟩ := q
    simp only at h1 h1n h2n
    rw [h1, nameLe_antisymm h1n h2n]

theorem keyLe_of_not_keyLt {p q : Nat × String} (h : ¬ keyLt p q) : keyLe q p := by
  unfold keyLt at h
  push_neg at h
  obtain ⟨h1, h2⟩ := h
  rcases Nat.lt_trichotomy q.1 p.1 with h3 | h3 | h3
  · exact Or.inl h3
  · refine Or.inr ⟨h3, ?_⟩
    rw [nameLe_iff]
    simpa using h2 h3.symm
  · omega

theorem keyLt_decEq (p q : Nat × String) :
    (p.1 < q.1 ∨ (p.1 = q.1 ∧ nameLt p.2 q.2 = true)) = keyLt p q := rfl

theorem core_eq (c : Clique) :
    c.core = (c.nodes.foldl (coreStep c) none).map Prod.snd := rfl

theorem core_go (c : Clique) : ∀ (l : List String) (bm : Nat) (bn : String),
    ∃ km m,
      l.foldl (coreStep c) (some (bm, bn)) = some (km, m) ∧
      ((km = bm ∧ m = bn) ∨ (m ∈ l ∧ km = Clique.maxIncident c m)) ∧
      keyLe (km, m) (bm, bn) ∧
      ∀ n ∈ l, keyLe (km, m) (Clique.maxIncident c n, n) := by
  intro l
  induction l with
  | nil =>
    intro bm bn
    exact ⟨bm, bn, rfl, Or.inl ⟨rfl, rfl⟩, keyLe_refl _, by simp⟩
  | cons n0 t ih =>
    intro bm bn
    simp only [List.foldl_cons]
    by_cases hcond : Clique.maxIncident c n0 < bm ∨
        (Clique.maxIncident c n0 = bm ∧ nameLt n0 bn = true)
    · have hstep : coreStep c (some (bm, bn)) n0 = some (Clique.maxIncident c n0, n0) := by
        simp [coreStep, hcond]
      rw [hstep]
      obtain ⟨km, m, heq, hmem, hle, hall⟩ := ih (Clique.maxIncident c n0) n0
      have hlt0 : keyLt (Clique.maxIncident c n0, n0) (bm, bn) := hcond
      have hle0 : keyLe (Clique.maxIncident c n0, n0) (bm, bn) := by
        rcases hlt0 with h | ⟨h, hn⟩
        · exact Or.inl h
        · exact Or.inr ⟨h, nameLe_of_lt hn⟩
      refine ⟨km, m, heq, ?_, keyLe_trans hle hle0, ?_⟩
      · rcases hmem with ⟨h1, h2⟩ | ⟨h1, h2⟩
        · exact Or.inr ⟨by rw [h2]; exact List.mem_cons_self n0 t, by rw [h1, h2]⟩
        · exact Or.inr ⟨List.mem_cons_of_mem n0 h1, h2⟩
      · intro n hn
        rcases List.mem_cons.mp hn with rfl | hn2
        · exact hle
        · exact hall n hn2
    · have hstep : coreStep c (some (bm, bn)) n0 = some (bm, bn) := by
        simp only [coreStep]
        rw [if_neg hcond]
      rw [hstep]
      obtain ⟨km, m, heq, hmem, hle, hall⟩ := ih bm bn
      have hge0 : keyLe (bm, bn) (Clique.maxIncident c n0, n0) :=
        keyLe_of_not_keyLt hcond
      refine ⟨km, m, heq, ?_, hle, ?_⟩
      · rcases hmem with ⟨h1, h2⟩ | ⟨h1, h2⟩
        · exact Or.inl ⟨h1, h2⟩
        · exact Or.inr ⟨List.mem_cons_of_mem n0 h1, h2⟩
      · intro n hn
        rcases List.mem_cons.mp hn with rfl | hn2
        · exact keyLe_trans hle hge0
        · exact hall n hn2

/-- `Clique::core` on a non-empty clique returns a member whose
(max incident score, name) key is minimal among all members. -/
theorem core_spec (c : Clique) (hne : c.nodes ≠ []) :
    ∃ m, c.core = some m ∧ m ∈ c.nodes ∧
      ∀ n ∈ c.nodes,
        keyLe (Clique.maxIncident c m, m) (Clique.maxIncident c n, n) := by
  rw [core_eq]
  cases hn : c.nodes with
  | nil => exact absurd hn hne
  | cons n0 t =>
    simp only [List.foldl_cons]
    have hstep : coreStep c none n0 = some (Clique.maxIncident c n0, n0) := rfl
    rw [hstep]
    obtain ⟨km, m, heq, hmem, hle, hall⟩ := core_go c t (Clique.maxIncident c n0) n0
    have hkm : km = Clique.maxIncident c m := by
      rcases hmem with ⟨h1, h2⟩ | ⟨h1, h2⟩
      · rw [h1, h2]
      · exact h2
    refine ⟨m, by rw [heq]; rfl, ?_, ?_⟩
    · rcases hmem with ⟨h1, h2⟩ | ⟨h1, h2⟩
      · rw [h2]; exact List.mem_cons_self n0 t
      · exact List.mem_cons_of_mem n0 h1
    · intro n hn2
      rcases List.mem_cons.mp hn2 with rfl | hn3
      · exact hkm ▸ hle
      · exact hkm ▸ hall n hn3

/-- C5: for every non-empty clique, `core()` returns the member whose
maximum incident edge score is smallest, ties broken by the
lexicographically smallest name (a member with no incident edges counts as
maximum 0, which is how `maxIncident` folds an empty list), and the result
depends only on the member set and the per-member maximum incident scores,
not on insertion order. -/
theorem claim_C5 (c : Clique) (hne : c.nodes ≠ []) :
    ∃ m, c.core = some m ∧ m ∈ c.nodes ∧
      (∀ n ∈ c.nodes, n ≠ m →
        Clique.maxIncident c m < Clique.maxIncident c n ∨
          (Clique.maxIncident c m = Clique.maxIncident c n ∧ nameLt m n = true)) ∧
      (∀ c2 : Clique, (∀ x, x ∈ c2.nodes ↔ x ∈ c.nodes) →
        (∀ x, Clique.maxIncident c2 x = Clique.maxIncident c x) → c2.core = some m) := by
  obtain ⟨m, hcore, hmem, hall⟩ := core_spec c hne
  refine ⟨m, hcore, hmem, ?_, ?_⟩
  · intro n hn hne2
    rcases hall n hn with h | ⟨h, hn2⟩
    · exact Or.inl h
    · exact Or.inr ⟨h, nameLt_of_le_ne hn2 (Ne.symm hne2)⟩
  · intro c2 hnodes hmax
    have hne2 : c2.nodes ≠ [] := by
      cases hn0 : c.nodes with
      | nil => exact absurd hn0 hne
      | cons x t =>
        intro hnil
        have : x ∈ c2.nodes := (hnodes x).mpr (by rw [hn0]; exact List.mem_cons_self x t)
        rw [hnil] at this
        cases this
    obtain ⟨m2, hcore2, hmem2, hall2⟩ := core_spec c2 hne2
    have h1 : keyLe (Clique.maxIncident c m2, m2) (Clique.maxIncident c m, m) := by
      have := hall2 m ((hnodes m).mpr hmem)
      rwa [hmax m2, hmax m] at this
    have h2 : keyLe (Clique.maxIncident c m, m) (Clique.maxIncident c m2, m2) :=
      hall m2 ((hnodes m2).mp hmem2)
    have := keyLe_antisymm h1 h2
    rw [hcore2]
    have hm2 : m2 = m := congrArg Prod.snd this
    rw [hm2]

theorem claim_C5_witness :
    ∃ m, (Clique.new "c" "b" 5 0).core = some m ∧ m ∈ (Clique.new "c" "b" 5 0).nodes ∧
      (∀ n ∈ (Clique.new "c" "b" 5 0).nodes, n ≠ m →
        Clique.maxIncident (Clique.new "c" "b" 5 0) m <
            Clique.maxIncident (Clique.new "c" "b" 5 0) n ∨
          (Clique.maxIncident (Clique.new "c" "b" 5 0) m =
              Clique.maxIncident (Clique.new "c" "b" 5 0) n ∧ nameLt m n = true)) ∧
      (∀ c2 : Clique, (∀ x, x ∈ c2.nodes ↔ x ∈ (Clique.new "c" "b" 5 0).nodes) →
        (∀ x, Clique.maxIncident c2 x = Clique.maxIncident (Clique.new "c" "b" 5 0) x) →
        c2.core = some m) :=
  claim_C5 (Clique.new "c" "b" 5 0) (by decide)

/-! ### Claim C3: the clique export -/

/-- C3 counterexample: `Clique::export` emits the non-core members in
member-insertion order, not sorted; for `cliqueEx3` the list is
`["c", "a"]`, which is not in ascending lexicographic order. -/
theorem claim_C3_counterexample :
    cliqueEx3.export.non_core_members = ["c", "a"] ∧
    ¬ List.Sorted (fun a b => nameLe a b = true) cliqueEx3.export.non_core_members := by
  constructor
  · rfl
  · decide

/-- C3 (amended): `Clique.export()` returns the core name, the list of all
non-core members in member-insertion order (the member set minus the core,
sorted only later by the `Display` rendering), and the maximum edge score
over all of the clique's edges. -/
theorem claim_C3_amended (c : Clique) (hne : c.nodes ≠ []) (hnd : c.nodes.Nodup) :
    ∃ m, c.core = some m ∧ c.export.core = m ∧ m ∈ c.nodes ∧
      c.export.non_core_members.Sublist c.nodes ∧
      List.Perm (m :: c.export.non_core_members) c.nodes ∧
      (∀ e ∈ c.edges, e.2 ≤ c.export.max_ppm) ∧
      (c.edges ≠ [] → ∃ e ∈ c.edges, e.2 = c.export.max_ppm) := by
  obtain ⟨m, hcore, hmem, hall⟩ := core_spec c hne
  have hexp : c.export.core = m := by
    simp [Clique.export, hcore]
  have hnc : c.export.non_core_members = c.nodes.filter fun n => decide (n ≠ m) := by
    simp [Clique.export, hcore]
  have hmax : c.export.max_ppm = c.max_ppm := rfl
  refine ⟨m, hcore, hexp, hmem, ?_, ?_, ?_, ?_⟩
  · rw [hnc]
    exact List.filter_sublist c.nodes
  · rw [hnc]
    have hfe : (c.nodes.filter fun n => decide (n ≠ m)) = c.nodes.filter fun n => n != m := by
      apply List.filter_congr
      intro x hx
      by_cases hxm : x = m <;> simp [hxm]
    rw [hfe, ← hnd.erase_eq_filter m]
    exact (List.perm_cons_erase hmem).symm
  · intro e he
    rw [hmax]
    exact le_foldl_max _ _ (List.mem_map_of_mem Prod.snd he) 0
  · intro hedges
    rw [hmax]
    rcases foldl_max_mem (c.edges.map Prod.snd) 0 with h | h
    · obtain ⟨e0, hmem0⟩ := List.exists_mem_of_ne_nil c.edges hedges
      have h1 : e0.2 ≤ c.max_ppm := le_foldl_max _ _ (List.mem_map_of_mem Prod.snd hmem0) 0
      have h2 : c.max_ppm = 0 := h
      exact ⟨e0, hmem0, by omega⟩
    · obtain ⟨e, he, heq⟩ := List.mem_map.mp h
      exact ⟨e, he, heq⟩

/-! ### Claim C2: ordering of the clique-set export -/

theorem cmp_ppm_ne_gt_iff (a b : CliquesExportElement) :
    (a.cmp_ppm b ≠ Ordering.gt) ↔
      (elemRank a < elemRank b ∨
        (elemRank a = elemRank b ∧ a.clique.max_ppm ≤ b.clique.max_ppm)) := by
  cases a with
  | New ca =>
    cases b with
    | New cb =>
      simp [CliquesExportElement.cmp_ppm, elemRank, Nat.compare_eq_gt, Nat.not_lt]
    | Old cb m2 a2 =>
      simp [CliquesExportElement.cmp_ppm, elemRank]
  | Old ca m1 a1 =>
    cases b with
    | New cb =>
      simp [CliquesExportElement.cmp_ppm, elemRank]
    | Old cb m2 a2 =>
      simp [CliquesExportElement.cmp_ppm, elemRank, Nat.compare_eq_gt, Nat.not_lt]

theorem cmp_le_total (a b : CliquesExportElement) :
    (a.cmp_ppm b ≠ Ordering.gt) ∨ (b.cmp_ppm a ≠ Ordering.gt) := by
  rw [cmp_ppm_ne_gt_iff, cmp_ppm_ne_gt_iff]
  omega

theorem cmp_le_trans {a b c : CliquesExportElement} (h1 : a.cmp_ppm b ≠ Ordering.gt)
    (h2 : b.cmp_ppm c ≠ Ordering.gt) : a.cmp_ppm c ≠ Ordering.gt := by
  rw [cmp_ppm_ne_gt_iff] at h1 h2 ⊢
  omega

/-- C2 counterexample: two current sets holding the same two cliques (one
cored at "b" with member "d", one cored at "a" with member "c", both with
maximum score 10) in the two possible map-iteration orders export their
equal-score elements in opposite orders; since the two elements have
distinct content, no content-based tie-break (as the claim requires) is
compatible with both outputs, so equal-score elements are not ordered by
export content. -/
theorem claim_C2_counterexample :
    ((((Cliques.new 0).add "b" "d" 10).add "a" "c" 10).export (Cliques.new 0)).cliques =
      [CliquesExportElement.New ⟨"b", ["d"], 10⟩,
        CliquesExportElement.New ⟨"a", ["c"], 10⟩] ∧
    ((((Cliques.new 0).add "a" "c" 10).add "b" "d" 10).export (Cliques.new 0)).cliques =
      [CliquesExportElement.New ⟨"a", ["c"], 10⟩,
        CliquesExportElement.New ⟨"b", ["d"], 10⟩] ∧
    (⟨"a", ["c"], 10⟩ : CliqueExport) ≠ ⟨"b", ["d"], 10⟩ :=
  ⟨rfl, rfl, by decide⟩

/-- C2 (amended): every export list is sorted with all `Old` elements
(rank 0) before all `New` elements (rank 1) and, within each group,
ascending by the clique's maximum edge score; elements with equal maximum
score keep the (arbitrary) pre-sort iteration order — there is no
content-based tie-break. -/
theorem claim_C2_amended (cur prev : Cliques) :
    List.Pairwise
      (fun a b : CliquesExportElement =>
        elemRank a < elemRank b ∨
          (elemRank a = elemRank b ∧ a.clique.max_ppm ≤ b.clique.max_ppm))
      ((cur.export prev).cliques) := by
  haveI : IsTotal CliquesExportElement (fun a b => a.cmp_ppm b ≠ Ordering.gt) :=
    ⟨cmp_le_total⟩
  haveI : IsTrans CliquesExportElement (fun a b => a.cmp_ppm b ≠ Ordering.gt) :=
    ⟨fun _ _ _ => cmp_le_trans⟩
  have hs : List.Pairwise (fun a b : CliquesExportElement => a.cmp_ppm b ≠ Ordering.gt)
      ((cur.export prev).cliques) :=
    List.sorted_insertionSort
      (fun a b : CliquesExportElement => a.cmp_ppm b ≠ Ordering.gt)
      (cur.cliques.map fun q : Nat × Clique => Cliques.exportElem prev q.2)
  exact hs.imp fun h => (cmp_ppm_ne_gt_iff _ _).mp h

/-! ### Claim C1: boundaries emitted by the driver -/

/-- C1 counterexample: with the complete two-name table holding the single
edge `("a", "b", 5000)` and maximum requested boundary 60000 (parts per
million, i.e. `--max-similarity 6`), the driver emits exports only at
boundaries 0 and 10000: the final boundary covering the maximum requested
score is never emitted once the edges run out. -/
theorem claim_C1_counterexample :
    (driver [("a", "b", 5000)] 60000).map Prod.fst = [0, 10000] ∧
    60000 ∉ (driver [("a", "b", 5000)] 60000).map Prod.fst := by
  refine ⟨rfl, ?_⟩
  decide

/-! ### Claim C8: insertion-order independence of built tables -/

theorem orO_none_right (x : Option Nat) : orO x none = x := by
  cases x <;> rfl

theorem orO_assoc (x y z : Option Nat) : orO (orO x y) z = orO x (orO y z) := by
  cases x <;> rfl

theorem lastWrite_go (p : String × String) :
    ∀ (adds : List (String × String × Nat)) (i : Option Nat),
      adds.foldl (fun acc e => if canonPair e.1 e.2.1 = p then some e.2.2 else acc) i =
        orO (lastWrite adds p) i := by
  intro adds
  induction adds with
  | nil => intro i; rfl
  | cons e t ih =>
    intro i
    have hc : lastWrite (e :: t) p =
        orO (lastWrite t p) (if canonPair e.1 e.2.1 = p then some e.2.2 else none) := by
      show t.foldl _ (if canonPair e.1 e.2.1 = p then some e.2.2 else none) = _
      exact ih _
    rw [hc]
    show t.foldl _ (if canonPair e.1 e.2.1 = p then some e.2.2 else i) = _
    rw [ih _, orO_assoc]
    by_cases h : canonPair e.1 e.2.1 = p <;> simp [h, orO]

theorem lastWrite_cons (e : String × String × Nat) (t : List (String × String × Nat))
    (p : String × String) :
    lastWrite (e :: t) p =
      orO (lastWrite t p) (if canonPair e.1 e.2.1 = p then some e.2.2 else none) := by
  show t.foldl _ (if canonPair e.1 e.2.1 = p then some e.2.2 else none) = _
  exact lastWrite_go p t _

theorem lastWrite_eq_none_iff (adds : List (String × String × Nat)) (p : String × String) :
    lastWrite adds p = none ↔ ∀ e ∈ adds, canonPair e.1 e.2.1 ≠ p := by
  induction adds with
  | nil => simp [lastWrite]
  | cons e t ih =>
    rw [lastWrite_cons]
    constructor
    · intro h
      intro e2 he2
      rcases List.mem_cons.mp he2 with rfl | hm
      · intro hc
        rw [if_pos hc] at h
        cases hlw : lastWrite t p <;> simp [hlw, orO] at h
      · refine (ih.mp ?_) e2 hm
        cases hlw : lastWrite t p
        · rfl
        · rw [hlw] at h; simp [orO] at h
    · intro h
      have h1 : lastWrite t p = none := ih.mpr fun e2 he2 => h e2 (List.mem_cons_of_mem e he2)
      rw [h1, if_neg (h e (List.mem_cons_self e t))]
      rfl

theorem builderGet_new (l r : String) : builderGet PpmTableBuilder.new l r = none := rfl

theorem builderGet_add (b : PpmTableBuilder) (x y : String) (p : Nat) (l r : String) :
    builderGet (b.add_ppm x y p) l r =
      if canonPair x y = canonPair l r then some p else builderGet b l r := by
  simp only [builderGet, PpmTableBuilder.add_ppm]
  rw [lookupA_insertA]
  by_cases h1 : (canonPair l r).1 = (canonPair x y).1
  · rw [if_pos h1, Option.some_bind, lookupA_insertA]
    by_cases h2 : (canonPair l r).2 = (canonPair x y).2
    · have hpq : canonPair x y = canonPair l r := Prod.ext h1.symm h2.symm
      rw [if_pos h2, if_pos hpq]
    · have hpq : ¬ canonPair x y = canonPair l r := fun hc => h2 (by rw [hc])
      rw [if_neg h2, if_neg hpq, h1]
      cases hrow : lookupA b.ppms (canonPair x y).1 <;> simp [hrow, lookupA, List.find?]
  · have hpq : ¬ canonPair x y = canonPair l r := fun hc => h1 (by rw [hc])
    rw [if_neg h1, if_neg hpq]

theorem builderGet_foldl (l r : String) :
    ∀ (adds : List (String × String × Nat)) (b : PpmTableBuilder),
      builderGet (adds.foldl (fun b2 e => b2.add_ppm e.1 e.2.1 e.2.2) b) l r =
        orO (lastWrite adds (canonPair l r)) (builderGet b l r) := by
  intro adds
  induction adds with
  | nil => intro b; rfl
  | cons e t ih =>
    intro b
    show builderGet (t.foldl _ (b.add_ppm e.1 e.2.1 e.2.2)) l r = _
    rw [ih, builderGet_add, lastWrite_cons, orO_assoc]
    by_cases h : canonPair e.1 e.2.1 = canonPair l r <;> simp [h, orO]

theorem builderGet_builderOf (adds : List (String × String × Nat)) (l r : String) :
    builderGet (builderOf adds) l r = lastWrite adds (canonPair l r) := by
  unfold builderOf
  rw [builderGet_foldl, builderGet_new, orO_none_right]

theorem mem_keys_add (b : PpmTableBuilder) (x y : String) (p : Nat) (k : String) :
    k ∈ (b.add_ppm x y p).keys ↔ k ∈ b.keys ∨ k = x ∨ k = y := by
  show k ∈ insertS (insertS b.keys (canonPair x y).1) (canonPair x y).2 ↔ _
  rw [mem_insertS, mem_insertS, or_assoc]
  rw [show (k = (canonPair x y).1 ∨ k = (canonPair x y).2) ↔ (k = x ∨ k = y) from
    canonPair_fst_or x y k]

theorem mem_keys_foldl (k : String) :
    ∀ (adds : List (String × String × Nat)) (b : PpmTableBuilder),
      k ∈ (adds.foldl (fun b2 e => b2.add_ppm e.1 e.2.1 e.2.2) b).keys ↔
        k ∈ b.keys ∨ ∃ e ∈ adds, k = e.1 ∨ k = e.2.1 := by
  intro adds
  induction adds with
  | nil => intro b; simp
  | cons e t ih =>
    intro b
    show k ∈ (t.foldl _ (b.add_ppm e.1 e.2.1 e.2.2)).keys ↔ _
    rw [ih, mem_keys_add]
    simp only [List.mem_cons]
    constructor
    · rintro ((hb | he) | ⟨e2, he2, hk⟩)
      · exact Or.inl hb
      · exact Or.inr ⟨e, Or.inl rfl, he⟩
      · exact Or.inr ⟨e2, Or.inr he2, hk⟩
    · rintro (hb | ⟨e2, (rfl | he2), hk⟩)
      · exact Or.inl (Or.inl hb)
      · exact Or.inl (Or.inr hk)
      · exact Or.inr ⟨e2, he2, hk⟩

theorem keys_nodup_foldl :
    ∀ (adds : List (String × String × Nat)) (b : PpmTableBuilder),
      b.keys.Nodup → (adds.foldl (fun b2 e => b2.add_ppm e.1 e.2.1 e.2.2) b).keys.Nodup := by
  intro adds
  induction adds with
  | nil => intro b hb; exact hb
  | cons e t ih =>
    intro b hb
    exact ih _ (nodup_insertS _ _ (nodup_insertS _ _ hb))

theorem ppmsAt_eq (ppms : List (String × List (String × Nat))) (l r : String) :
    PpmTableBuilder.ppmsAt ppms l r =
      ((lookupA ppms l).bind fun row => lookupA row r).getD 0 := by
  unfold PpmTableBuilder.ppmsAt
  cases h : lookupA ppms l <;> simp [h, lookupA]

theorem sorted_keys_sorted (keys : List String) :
    List.Pairwise (fun a b => nameLe a b = true) (PpmTableBuilder.sorted_keys keys) := by
  haveI : IsTotal String (fun a b => nameLe a b = true) := ⟨nameLe_total⟩
  haveI : IsTrans String (fun a b => nameLe a b = true) := ⟨fun _ _ _ => nameLe_trans⟩
  exact List.sorted_insertionSort (fun a b => nameLe a b = true) keys

theorem sorted_keys_perm (keys : List String) :
    List.Perm (PpmTableBuilder.sorted_keys keys) keys :=
  List.perm_insertionSort _ keys

theorem sorted_keys_eq_of_perm (k1 k2 : List String) (h : List.Perm k1 k2) :
    PpmTableBuilder.sorted_keys k1 = PpmTableBuilder.sorted_keys k2 := by
  haveI : IsAntisymm String (fun a b => nameLe a b = true) := ⟨fun _ _ => nameLe_antisymm⟩
  exact List.eq_of_perm_of_sorted
    ((sorted_keys_perm k1).trans (h.trans (sorted_keys_perm k2).symm))
    (sorted_keys_sorted k1) (sorted_keys_sorted k2)

theorem generate_congr (s : List String) (pp1 pp2 : List (String × List (String × Nat)))
    (h : ∀ l r : String, nameLt l r = true →
      PpmTableBuilder.ppmsAt pp1 l r = PpmTableBuilder.ppmsAt pp2 l r)
    (hs : List.Pairwise (fun a b => nameLe a b = true) s) (hn : s.Nodup) :
    PpmTableBuilder.generate_ppm_table s pp1 = PpmTableBuilder.generate_ppm_table s pp2 := by
  unfold PpmTableBuilder.generate_ppm_table
  apply List.map_congr_left
  intro il hil
  apply List.filterMap_congr
  intro jr hjr
  by_cases hij : il.1 < jr.1
  · rw [if_pos hij, if_pos hij]
    obtain ⟨i, l⟩ := il
    obtain ⟨j, r⟩ := jr
    simp only at hij ⊢
    have hgi : s[i]? = some l := by
      simpa using (List.mk_mem_enum_iff_getElem?).mp hil
    have hgj : s[j]? = some r := by
      simpa using (List.mk_mem_enum_iff_getElem?).mp hjr
    have hilen : i < s.length := by
      rcases List.getElem?_eq_some_iff.mp hgi with ⟨hl, _⟩
      exact hl
    have hjlen : j < s.length := by
      rcases List.getElem?_eq_some_iff.mp hgj with ⟨hl, _⟩
      exact hl
    have hl2 : s[i] = l := by
      have := List.getElem?_eq_getElem hilen
      rw [hgi] at this
      exact (Option.some.injEq _ _).mp this.symm
    have hr2 : s[j] = r := by
      have := List.getElem?_eq_getElem hjlen
      rw [hgj] at this
      exact (Option.some.injEq _ _).mp this.symm
    have hle : nameLe l r = true := by
      have := List.pairwise_iff_getElem.mp hs i j hilen hjlen hij
      rwa [hl2, hr2] at this
    have hne : l ≠ r := by
      intro he
      have hij2 : i = j := (hn.getElem_inj_iff).mp (by rw [hl2, hr2]; exact he)
      omega
    have hlt : nameLt l r = true := nameLt_of_le_ne hle hne
    rw [h l r hlt]
  · rw [if_neg hij, if_neg hij]

theorem build_ok_of_complete (b : PpmTableBuilder) (h : b.data_is_complete = true) :
    ∃ t, b.build = Except.ok t := by
  unfold PpmTableBuilder.build
  rw [if_pos h]
  exact ⟨_, rfl⟩

theorem build_ok_eq (b : PpmTableBuilder) (t : PpmTable) (h : b.build = Except.ok t) :
    t = { ppm_table :=
            PpmTableBuilder.generate_ppm_table (PpmTableBuilder.sorted_keys b.keys) b.ppms
          indices :=
            PpmTableBuilder.indices_from_sorted_keys (PpmTableBuilder.sorted_keys b.keys) } := by
  unfold PpmTableBuilder.build at h
  by_cases hc : b.data_is_complete = true
  · rw [if_pos hc] at h
    exact (Except.ok.inj h).symm
  · rw [if_neg hc] at h
    cases h

/-- C8: two builders fed the same multiset of edge triples, in any two
insertion orders, with duplicate additions allowed as long as the last
written score per canonical pair agrees, build to the same outcome: both
fail, or both succeed with tables equal under the source `PartialEq`
(set-equality of edge triples). -/
theorem claim_C8 (adds1 adds2 : List (String × String × Nat))
    (hperm : List.Perm adds1 adds2)
    (hlast : ∀ e ∈ adds1,
      lastWrite adds1 (canonPair e.1 e.2.1) = lastWrite adds2 (canonPair e.1 e.2.1)) :
    ((∃ t, (builderOf adds1).build = Except.ok t) ↔
      (∃ t, (builderOf adds2).build = Except.ok t)) ∧
    ∀ t1 t2, (builderOf adds1).build = Except.ok t1 →
      (builderOf adds2).build = Except.ok t2 → PpmTable.tablesEq t1 t2 := by
  have hg : ∀ l r, builderGet (builderOf adds1) l r = builderGet (builderOf adds2) l r := by
    intro l r
    rw [builderGet_builderOf, builderGet_builderOf]
    by_cases hex : ∃ e ∈ adds1, canonPair e.1 e.2.1 = canonPair l r
    · obtain ⟨e, he, hc⟩ := hex
      have := hlast e he
      rwa [hc] at this
    · push_neg at hex
      have h1 : lastWrite adds1 (canonPair l r) = none := (lastWrite_eq_none_iff _ _).mpr hex
      have h2 : lastWrite adds2 (canonPair l r) = none := by
        refine (lastWrite_eq_none_iff _ _).mpr ?_
        intro e he
        exact hex e (hperm.mem_iff.mpr he)
      rw [h1, h2]
  have hk : ∀ k, k ∈ (builderOf adds1).keys ↔ k ∈ (builderOf adds2).keys := by
    intro k
    unfold builderOf
    rw [mem_keys_foldl, mem_keys_foldl]
    constructor
    · rintro (h | ⟨e, he, hk2⟩)
      · exact Or.inl h
      · exact Or.inr ⟨e, hperm.mem_iff.mp he, hk2⟩
    · rintro (h | ⟨e, he, hk2⟩)
      · exact Or.inl h
      · exact Or.inr ⟨e, hperm.mem_iff.mpr he, hk2⟩
  have hn1 : (builderOf adds1).keys.Nodup := keys_nodup_foldl adds1 _ List.nodup_nil
  have hn2 : (builderOf adds2).keys.Nodup := keys_nodup_foldl adds2 _ List.nodup_nil
  have hcomp : (builderOf adds1).data_is_complete = (builderOf adds2).data_is_complete := by
    rcases Bool.eq_false_or_eq_true (builderOf adds1).data_is_complete with h1 | h1 <;>
      rcases Bool.eq_false_or_eq_true (builderOf adds2).data_is_complete with h2 | h2
    · rw [h1, h2]
    · exfalso
      have hp1 := (data_is_complete_iff _).mp h1
      have hp2 : ∀ l ∈ (builderOf adds2).keys, ∀ r ∈ (builderOf adds2).keys, l ≠ r →
          (builderGet (builderOf adds2) l r).isSome = true := by
        intro l hl r hr hne
        rw [← hg l r]
        exact hp1 l ((hk l).mpr hl) r ((hk r).mpr hr) hne
      rw [(data_is_complete_iff _).mpr hp2] at h2
      cases h2
    · exfalso
      have hp2 := (data_is_complete_iff _).mp h2
      have hp1 : ∀ l ∈ (builderOf adds1).keys, ∀ r ∈ (builderOf adds1).keys, l ≠ r →
          (builderGet (builderOf adds1) l r).isSome = true := by
        intro l hl r hr hne
        rw [hg l r]
        exact hp2 l ((hk l).mp hl) r ((hk r).mp hr) hne
      rw [(data_is_complete_iff _).mpr hp1] at h1
      cases h1
    · rw [h1, h2]
  have hkeysperm : List.Perm (builderOf adds1).keys (builderOf adds2).keys :=
    (List.perm_ext_iff_of_nodup hn1 hn2).mpr hk
  have hsorted : PpmTableBuilder.sorted_keys (builderOf adds1).keys =
      PpmTableBuilder.sorted_keys (builderOf adds2).keys :=
    sorted_keys_eq_of_perm _ _ hkeysperm
  constructor
  · constructor
    · rintro ⟨t, ht⟩
      have h1 : (builderOf adds1).data_is_complete = true := by
        by_contra hcon
        simp only [Bool.not_eq_true] at hcon
        simp [PpmTableBuilder.build, hcon] at ht
      have h2 : (builderOf adds2).data_is_complete = true := by rw [← hcomp]; exact h1
      exact build_ok_of_complete _ h2
    · rintro ⟨t, ht⟩
      have h2 : (builderOf adds2).data_is_complete = true := by
        by_contra hcon
        simp only [Bool.not_eq_true] at hcon
        simp [PpmTableBuilder.build, hcon] at ht
      have h1 : (builderOf adds1).data_is_complete = true := by rw [hcomp]; exact h2
      exact build_ok_of_complete _ h1
  · intro t1 t2 ht1 ht2
    have h1 : (builderOf adds1).data_is_complete = true := by
      by_contra hcon
      simp only [Bool.not_eq_true] at hcon
      simp [PpmTableBuilder.build, hcon] at ht1
    have h2 : (builderOf adds2).data_is_complete = true := by rw [← hcomp]; exact h1
    have hgen : PpmTableBuilder.generate_ppm_table
        (PpmTableBuilder.sorted_keys (builderOf adds1).keys) (builderOf adds1).ppms =
      PpmTableBuilder.generate_ppm_table
        (PpmTableBuilder.sorted_keys (builderOf adds2).keys) (builderOf adds2).ppms := by
      rw [← hsorted]
      apply generate_congr
      · intro l r hlt
        rw [ppmsAt_eq, ppmsAt_eq]
        have := hg l r
        rw [builderGet_of_lt _ hlt, builderGet_of_lt _ hlt] at this
        rw [this]
      · exact sorted_keys_sorted _
      · exact (sorted_keys_perm _).nodup_iff.mpr hn1
    have he1 := build_ok_eq _ _ ht1
    have he2 := build_ok_eq _ _ ht2
    have heq : t1 = t2 := by
      rw [he1, he2, hgen, hsorted]
    intro e
    rw [heq]

theorem claim_C8_witness :
    ((∃ t, (builderOf [("b", "a", 10), ("a", "c", 20), ("b", "c", 14)]).build =
        Except.ok t) ↔
      (∃ t, (builderOf [("a", "c", 20), ("b", "c", 14), ("b", "a", 10)]).build =
        Except.ok t)) ∧
    ∀ t1 t2, (builderOf [("b", "a", 10), ("a", "c", 20), ("b", "c", 14)]).build =
        Except.ok t1 →
      (builderOf [("a", "c", 20), ("b", "c", 14), ("b", "a", 10)]).build = Except.ok t2 →
      PpmTable.tablesEq t1 t2 :=
  claim_C8 [("b", "a", 10), ("a", "c", 20), ("b", "c", 14)]
    [("a", "c", 20), ("b", "c", 14), ("b", "a", 10)] (by decide) (by decide)

theorem claim_C3_amended_witness :
    ∃ m, cliqueEx3.core = some m ∧ cliqueEx3.export.core = m ∧ m ∈ cliqueEx3.nodes ∧
      cliqueEx3.export.non_core_members.Sublist cliqueEx3.nodes ∧
      List.Perm (m :: cliqueEx3.export.non_core_members) cliqueEx3.nodes ∧
      (∀ e ∈ cliqueEx3.edges, e.2 ≤ cliqueEx3.export.max_ppm) ∧
      (cliqueEx3.edges ≠ [] → ∃ e ∈ cliqueEx3.edges, e.2 = cliqueEx3.export.max_ppm) :=
  claim_C3_amended cliqueEx3 (by decide) (by decide)

/-! ### List-map lemmas for the clique-set invariant -/

theorem mem_insertA {κ α : Type} [DecidableEq κ] (xs : List (κ × α)) (k : κ) (v : α)
    (e : κ × α) (he : e ∈ insertA xs k v) : e = (k, v) ∨ e ∈ xs := by
  induction xs with
  | nil =>
    simp [insertA] at he
    exact Or.inl he
  | cons p t ih =>
    obtain ⟨k1, v1⟩ := p
    by_cases h : k1 = k
    · subst h
      simp only [insertA, if_pos rfl] at he
      rcases List.mem_cons.mp he with rfl | hm
      · exact Or.inl rfl
      · exact Or.inr (List.mem_cons_of_mem _ hm)
    · simp only [insertA, if_neg h] at he
      rcases List.mem_cons.mp he with rfl | hm
      · exact Or.inr (List.mem_cons_self _ _)
      · rcases ih hm with h2 | h2
        · exact Or.inl h2
        · exact Or.inr (List.mem_cons_of_mem _ h2)

theorem insertA_keeps_key {κ α : Type} [DecidableEq κ] (xs : List (κ × α)) (k : κ) (v : α)
    (k0 : κ) (v0 : α) (h : (k0, v0) ∈ xs) : ∃ v1, (k0, v1) ∈ insertA xs k v := by
  induction xs with
  | nil => cases h
  | cons p t ih =>
    obtain ⟨k1, v1⟩ := p
    by_cases hk : k1 = k
    · subst hk
      rcases List.mem_cons.mp h with he | hm
      · obtain ⟨he1, he2⟩ := Prod.mk.injEq _ _ _ _ ▸ he
        exact ⟨v, by simp [insertA, ← he1]⟩
      · exact ⟨v0, by simp only [insertA, if_pos rfl]; exact List.mem_cons_of_mem _ hm⟩
    · rcases List.mem_cons.mp h with he | hm
      · exact ⟨v0, by simp only [insertA, if_neg hk]; exact he ▸ List.mem_cons_self _ _⟩
      · obtain ⟨v2, hv2⟩ := ih hm
        exact ⟨v2, by simp only [insertA, if_neg hk]; exact List.mem_cons_of_mem _ hv2⟩

theorem lookupA_isSome_mem {κ α : Type} [DecidableEq κ] (xs : List (κ × α)) (k : κ)
    (h : (lookupA xs k).isSome = true) : ∃ v, (k, v) ∈ xs := by
  induction xs with
  | nil => simp [lookupA, List.find?] at h
  | cons p t ih =>
    obtain ⟨k1, v1⟩ := p
    rw [lookupA_cons] at h
    by_cases hk : k1 = k
    · subst hk
      exact ⟨v1, List.mem_cons_self _ _⟩
    · rw [if_neg hk] at h
      obtain ⟨v, hv⟩ := ih h
      exact ⟨v, List.mem_cons_of_mem _ hv⟩

theorem lookupA_of_mem_nodup {κ α : Type} [DecidableEq κ] (xs : List (κ × α)) (k : κ)
    (v : α) (hm : (k, v) ∈ xs) (hn : (xs.map Prod.fst).Nodup) : lookupA xs k = some v := by
  induction xs with
  | nil => cases hm
  | cons p t ih =>
    obtain ⟨k1, v1⟩ := p
    simp only [List.map_cons, List.nodup_cons] at hn
    rcases List.mem_cons.mp hm with he | hm2
    · obtain ⟨he1, he2⟩ := Prod.mk.injEq _ _ _ _ ▸ he
      rw [lookupA_cons, he1, if_pos rfl, he2]
    · rw [lookupA_cons]
      have hk : k1 ≠ k := by
        intro hc
        subst hc
        exact hn.1 (List.mem_map_of_mem Prod.fst hm2)
      rw [if_neg hk]
      exact ih hm2 hn.2

theorem eq_of_key_mem_nodup {κ α : Type} [DecidableEq κ] (xs : List (κ × α))
    (hn : (xs.map Prod.fst).Nodup) (a b : κ × α) (ha : a ∈ xs) (hb : b ∈ xs)
    (hk : a.1 = b.1) : a = b := by
  have h1 : lookupA xs a.1 = some a.2 := lookupA_of_mem_nodup xs a.1 a.2 ha hn
  have h2 : lookupA xs b.1 = some b.2 := lookupA_of_mem_nodup xs b.1 b.2 hb hn
  rw [hk] at h1
  rw [h1] at h2
  exact Prod.ext hk (Option.some.inj h2)

theorem mem_updateC (xs : List (Nat × Clique)) (k : Nat) (f : Clique → Clique)
    (q : Nat × Clique) (hq : q ∈ Cliques.updateC xs k f) :
    (q ∈ xs ∧ q.1 ≠ k) ∨ ∃ v : Clique, (k, v) ∈ xs ∧ q = (k, f v) := by
  obtain ⟨p, hp, he⟩ := List.mem_map.mp hq
  by_cases hk : p.1 = k
  · right
    refine ⟨p.2, by rw [← hk]; exact hp, ?_⟩
    rw [← he, if_pos hk, hk]
  · left
    rw [← he, if_neg hk]
    exact ⟨hp, hk⟩

theorem updateC_keys (xs : List (Nat × Clique)) (k : Nat) (f : Clique → Clique) :
    (Cliques.updateC xs k f).map Prod.fst = xs.map Prod.fst := by
  unfold Cliques.updateC
  rw [List.map_map]
  apply List.map_congr_left
  intro p hp
  by_cases hk : p.1 = k <;> simp [hk]

theorem mem_removeA {κ α : Type} [DecidableEq κ] (xs : List (κ × α)) (k : κ) (q : κ × α) :
    q ∈ removeA xs k ↔ q ∈ xs ∧ q.1 ≠ k := by
  unfold removeA
  rw [List.mem_filter]
  simp

theorem removeA_sublist {κ α : Type} [DecidableEq κ] (xs : List (κ × α)) (k : κ) :
    (removeA xs k).Sublist xs := List.filter_sublist xs

/-! ### Clique-level lemmas for the invariant -/

theorem edgeKey_cases (l r : String) : edgeKey l r = (l, r) ∨ edgeKey l r = (r, l) := by
  unfold edgeKey
  by_cases h : nameLe l r = true <;> simp [h]

theorem edgeKey_mem_iff (l r x : String) :
    (x = (edgeKey l r).1 ∨ x = (edgeKey l r).2) ↔ (x = l ∨ x = r) := by
  rcases edgeKey_cases l r with h | h <;> rw [h] <;> simp [or_comm]

theorem clique_add_id (c : Clique) (l r : String) (ppm : Nat) :
    (c.add l r ppm).id = c.id := by
  unfold Clique.add
  split <;> rfl

theorem clique_add_nodes_super (c : Clique) (l r : String) (ppm : Nat) (x : String)
    (hx : x ∈ c.nodes) : x ∈ (c.add l r ppm).nodes := by
  unfold Clique.add
  split
  · exact hx
  · exact (mem_insertS _ _ _).mpr (Or.inl ((mem_insertS _ _ _).mpr (Or.inl hx)))

theorem clique_add_nodes_sub (c : Clique) (l r : String) (ppm : Nat) (x : String)
    (hx : x ∈ (c.add l r ppm).nodes) : x ∈ c.nodes ∨ x = l ∨ x = r := by
  unfold Clique.add at hx
  split at hx
  · exact Or.inl hx
  · rcases (mem_insertS _ _ _).mp hx with hx2 | hx2
    · rcases (mem_insertS _ _ _).mp hx2 with hx3 | hx3
      · exact Or.inl hx3
      · exact Or.inr (Or.inl hx3)
    · exact Or.inr (Or.inr hx2)

theorem clique_add_nodes_iff (c : Clique) (l r : String) (ppm : Nat)
    (hclosed : ∀ e ∈ c.edges, e.1.1 ∈ c.nodes ∧ e.1.2 ∈ c.nodes) (x : String) :
    x ∈ (c.add l r ppm).nodes ↔ x ∈ c.nodes ∨ x = l ∨ x = r := by
  constructor
  · exact clique_add_nodes_sub c l r ppm x
  · rintro (hx | rfl | rfl)
    · exact clique_add_nodes_super c l r ppm x hx
    · unfold Clique.add
      split
      · rename_i hsome
        obtain ⟨v, hv⟩ := lookupA_isSome_mem _ _ hsome
        have := hclosed _ hv
        rcases edgeKey_cases x r with h | h <;> rw [h] at this
        · exact this.1
        · exact this.2
      · exact (mem_insertS _ _ _).mpr (Or.inl ((mem_insertS _ _ _).mpr (Or.inr rfl)))
    · unfold Clique.add
      split
      · rename_i hsome
        obtain ⟨v, hv⟩ := lookupA_isSome_mem _ _ hsome
        have := hclosed _ hv
        rcases edgeKey_cases l x with h | h <;> rw [h] at this
        · exact this.2
        · exact this.1
      · exact (mem_insertS _ _ _).mpr (Or.inr rfl)

theorem clique_add_wfc (c : Clique) (l r : String) (ppm : Nat) (h : Clique.WFc c) :
    Clique.WFc (c.add l r ppm) := by
  obtain ⟨hnd, hne, hclosed, hcov⟩ := h
  refine ⟨?_, ?_, ?_, ?_⟩
  · unfold Clique.add
    split
    · exact hnd
    · exact nodup_insertS _ _ (nodup_insertS _ _ hnd)
  · intro hnil
    rcases hn : c.nodes with _ | ⟨x, t⟩
    · exact hne hn
    · have : x ∈ (c.add l r ppm).nodes :=
        clique_add_nodes_super c l r ppm x (by rw [hn]; exact List.mem_cons_self x t)
      rw [hnil] at this
      cases this
  · intro e he
    have hsub : ∀ x, x ∈ c.nodes → x ∈ (c.add l r ppm).nodes :=
      fun x => clique_add_nodes_super c l r ppm x
    unfold Clique.add at he
    split at he
    · rcases mem_insertA _ _ _ _ he with rfl | hm
      · constructor
        · refine (clique_add_nodes_iff c l r ppm hclosed _).mpr ?_
          rcases edgeKey_cases l r with h | h <;> rw [h] <;> simp
        · refine (clique_add_nodes_iff c l r ppm hclosed _).mpr ?_
          rcases edgeKey_cases l r with h | h <;> rw [h] <;> simp
      · exact ⟨hsub _ (hclosed e hm).1, hsub _ (hclosed e hm).2⟩
    · rcases List.mem_append.mp he with hm | hm
      · exact ⟨hsub _ (hclosed e hm).1, hsub _ (hclosed e hm).2⟩
      · rcases List.mem_singleton.mp hm with rfl
        constructor
        · refine (clique_add_nodes_iff c l r ppm hclosed _).mpr ?_
          rcases edgeKey_cases l r with h | h <;> rw [h] <;> simp
        · refine (clique_add_nodes_iff c l r ppm hclosed _).mpr ?_
          rcases edgeKey_cases l r with h | h <;> rw [h] <;> simp
  · intro n hn
    unfold Clique.add at hn ⊢
    split at hn
    · rename_i hsome
      obtain ⟨e, he, hor⟩ := hcov n hn
      obtain ⟨k0, v0⟩ := e
      obtain ⟨v1, hv1⟩ := insertA_keeps_key c.edges (edgeKey l r) ppm k0 v0 he
      simp only [if_pos hsome]
      exact ⟨(k0, v1), hv1, hor⟩
    · rename_i hnone
      simp only [if_neg hnone]
      rcases (mem_insertS _ _ _).mp hn with hn2 | hn2
      · rcases (mem_insertS _ _ _).mp hn2 with hn3 | hn3
        · obtain ⟨e, he, hor⟩ := hcov n hn3
          exact ⟨e, List.mem_append_left _ he, hor⟩
        · refine ⟨(edgeKey l r, ppm), List.mem_append_right _ (List.mem_singleton.mpr rfl), ?_⟩
          exact (edgeKey_mem_iff l r n).mpr (Or.inl hn3)
      · refine ⟨(edgeKey l r, ppm), List.mem_append_right _ (List.mem_singleton.mpr rfl), ?_⟩
        exact (edgeKey_mem_iff l r n).mpr (Or.inr hn2)

theorem clique_new_eq (l r : String) (ppm : Nat) (id : Nat) :
    Clique.new l r ppm id =
      { nodes := insertS (insertS [] l) r
        edges := [(edgeKey l r, ppm)]
        id := id } := by
  unfold Clique.new Clique.add
  rw [show (lookupA ([] : List ((String × String) × Nat)) (edgeKey l r)).isSome = false
    from rfl]
  simp

theorem clique_new_nodes (l r : String) (ppm : Nat) (id : Nat) (x : String) :
    x ∈ (Clique.new l r ppm id).nodes ↔ x = l ∨ x = r := by
  rw [clique_new_eq]
  show x ∈ insertS (insertS [] l) r ↔ _
  rw [mem_insertS, mem_insertS]
  simp

theorem clique_new_wfc (l r : String) (ppm : Nat) (id : Nat) :
    Clique.WFc (Clique.new l r ppm id) := by
  have he_eq : (Clique.new l r ppm id).edges = [(edgeKey l r, ppm)] := by
    rw [clique_new_eq]
  refine ⟨?_, ?_, ?_, ?_⟩
  · rw [clique_new_eq]
    exact nodup_insertS _ _ (nodup_insertS _ _ List.nodup_nil)
  · intro hnil
    have hl : l ∈ (Clique.new l r ppm id).nodes := (clique_new_nodes l r ppm id l).mpr
      (Or.inl rfl)
    rw [hnil] at hl
    cases hl
  · intro e he
    rw [he_eq] at he
    rcases List.mem_singleton.mp he with rfl
    constructor
    · exact (clique_new_nodes l r ppm id _).mpr ((edgeKey_mem_iff l r _).mp (Or.inl rfl))
    · exact (clique_new_nodes l r ppm id _).mpr ((edgeKey_mem_iff l r _).mp (Or.inr rfl))
  · intro n hn
    refine ⟨(edgeKey l r, ppm), ?_, ?_⟩
    · rw [he_eq]
      exact List.mem_singleton.mpr rfl
    · exact (edgeKey_mem_iff l r n).mpr ((clique_new_nodes l r ppm id n).mp hn)

/-! ### Merge as a fold of adds -/

theorem foldAdd_id : ∀ (E : List ((String × String) × Nat)) (c : Clique),
    (E.foldl (fun acc e => acc.add e.1.1 e.1.2 e.2) c).id = c.id := by
  intro E
  induction E with
  | nil => intro c; rfl
  | cons e t ih =>
    intro c
    show (t.foldl _ (c.add e.1.1 e.1.2 e.2)).id = c.id
    rw [ih, clique_add_id]

theorem foldAdd_wfc : ∀ (E : List ((String × String) × Nat)) (c : Clique),
    Clique.WFc c → Clique.WFc (E.foldl (fun acc e => acc.add e.1.1 e.1.2 e.2) c) := by
  intro E
  induction E with
  | nil => intro c hc; exact hc
  | cons e t ih =>
    intro c hc
    exact ih _ (clique_add_wfc _ _ _ _ hc)

theorem foldAdd_nodes_super : ∀ (E : List ((String × String) × Nat)) (c : Clique)
    (x : String), x ∈ c.nodes →
    x ∈ (E.foldl (fun acc e => acc.add e.1.1 e.1.2 e.2) c).nodes := by
  intro E
  induction E with
  | nil => intro c x hx; exact hx
  | cons e t ih =>
    intro c x hx
    exact ih _ x (clique_add_nodes_super _ _ _ _ x hx)

theorem foldAdd_nodes_sub : ∀ (E : List ((String × String) × Nat)) (c : Clique)
    (x : String), x ∈ (E.foldl (fun acc e => acc.add e.1.1 e.1.2 e.2) c).nodes →
    x ∈ c.nodes ∨ ∃ e ∈ E, x = e.1.1 ∨ x = e.1.2 := by
  intro E
  induction E with
  | nil => intro c x hx; exact Or.inl hx
  | cons e t ih =>
    intro c x hx
    rcases ih _ x hx with h | ⟨e2, he2, hor⟩
    · rcases clique_add_nodes_sub _ _ _ _ _ h with h2 | h2 | h2
      · exact Or.inl h2
      · exact Or.inr ⟨e, List.mem_cons_self e t, Or.inl h2⟩
      · exact Or.inr ⟨e, List.mem_cons_self e t, Or.inr h2⟩
    · exact Or.inr ⟨e2, List.mem_cons_of_mem e he2, hor⟩

theorem foldAdd_endpoint_mem : ∀ (E : List ((String × String) × Nat)) (c : Clique)
    (x : String), Clique.WFc c → (∃ e ∈ E, x = e.1.1 ∨ x = e.1.2) →
    x ∈ (E.foldl (fun acc e => acc.add e.1.1 e.1.2 e.2) c).nodes := by
  intro E
  induction E with
  | nil =>
    intro c x hc hex
    obtain ⟨e, he, -⟩ := hex
    cases he
  | cons e t ih =>
    intro c x hc hex
    obtain ⟨e2, he2, hor⟩ := hex
    rcases List.mem_cons.mp he2 with rfl | hm
    · refine foldAdd_nodes_super t _ x ?_
      exact (clique_add_nodes_iff c _ _ _ hc.2.2.1 x).mpr (Or.inr hor)
    · exact ih _ x (clique_add_wfc _ _ _ _ hc) ⟨e2, hm, hor⟩

theorem clique_merge_id (c o : Clique) : (c.merge o).id = c.id := foldAdd_id o.edges c

theorem clique_merge_wfc (c o : Clique) (hc : Clique.WFc c) : Clique.WFc (c.merge o) :=
  foldAdd_wfc o.edges c hc

theorem clique_merge_nodes_iff (c o : Clique) (hc : Clique.WFc c) (ho : Clique.WFc o)
    (x : String) : x ∈ (c.merge o).nodes ↔ x ∈ c.nodes ∨ x ∈ o.nodes := by
  constructor
  · intro hx
    rcases foldAdd_nodes_sub o.edges c x hx with h | ⟨e, he, hor⟩
    · exact Or.inl h
    · right
      have := ho.2.2.1 e he
      rcases hor with rfl | rfl
      · exact this.1
      · exact this.2
  · rintro (h | h)
    · exact foldAdd_nodes_super o.edges c x h
    · exact foldAdd_endpoint_mem o.edges c x hc (ho.2.2.2 x h)

/-! ### Clique-set level lemmas -/

theorem find_id_none_iff (s : Cliques) (x : String) :
    s.find_id_of_clique_containing x = none ↔ ∀ q ∈ s.cliques, x ∉ q.2.nodes := by
  unfold Cliques.find_id_of_clique_containing
  rw [Option.map_eq_none', List.find?_eq_none]
  unfold Clique.containsName
  simp

theorem find_id_some (s : Cliques) (x : String) (i : Nat)
    (hwf : ∀ q ∈ s.cliques, q.2.id = q.1)
    (h : s.find_id_of_clique_containing x = some i) :
    ∃ q ∈ s.cliques, q.1 = i ∧ x ∈ q.2.nodes := by
  unfold Cliques.find_id_of_clique_containing at h
  rcases hf : s.cliques.find? fun q => q.2.containsName x with _ | q
  · rw [hf] at h
    cases h
  · rw [hf] at h
    have hq1 : q ∈ s.cliques := List.mem_of_find?_eq_some hf
    have hq2 := List.find?_some hf
    have hq3 : x ∈ q.2.nodes := by simpa [Clique.containsName] using hq2
    refine ⟨q, hq1, ?_, hq3⟩
    have : q.2.id = i := Option.some.inj h
    rw [← this, hwf q hq1]

/-! ### Preservation of the clique-set invariant under `Cliques::add` -/

theorem disj_symm :
    Symmetric fun q1 q2 : Nat × Clique => ∀ n, n ∈ q1.2.nodes → n ∉ q2.2.nodes :=
  fun a b h n hnb hna => h n hna hnb

theorem clique_new_id (l r : String) (ppm : Nat) (i : Nat) :
    (Clique.new l r ppm i).id = i := by
  rw [clique_new_eq]

theorem wfs_update_add (s : Cliques) (i : Nat) (l r : String) (ppm : Nat)
    (hwf : Cliques.WFs s) (Ci : Clique) (hCi : (i, Ci) ∈ s.cliques)
    (hlcond : l ∈ Ci.nodes ∨ ∀ q ∈ s.cliques, l ∉ q.2.nodes)
    (hrcond : r ∈ Ci.nodes ∨ ∀ q ∈ s.cliques, r ∉ q.2.nodes) :
    Cliques.WFs
      { s with cliques := Cliques.updateC s.cliques i fun c => c.add l r ppm } := by
  obtain ⟨hent, hkeys, hdisj⟩ := hwf
  refine ⟨?_, ?_, ?_⟩
  · intro q hq
    rcases mem_updateC s.cliques i (fun c => c.add l r ppm) q hq with
      ⟨hold, hkne⟩ | ⟨v, hv, rfl⟩
    · exact hent q hold
    · refine ⟨?_, (hent _ hv).2.1, clique_add_wfc _ _ _ _ (hent _ hv).2.2⟩
      show (v.add l r ppm).id = i
      rw [clique_add_id]
      exact (hent _ hv).1
  · have hgoal : ((Cliques.updateC s.cliques i (fun c => c.add l r ppm)).map
        Prod.fst).Nodup := by
      rw [updateC_keys]
      exact hkeys
    exact hgoal
  · have hgoal : (Cliques.updateC s.cliques i (fun c => c.add l r ppm)).Pairwise
        (fun q1 q2 => ∀ n, n ∈ q1.2.nodes → n ∉ q2.2.nodes) := by
      unfold Cliques.updateC
      rw [List.pairwise_map]
      refine hdisj.imp_of_mem ?_
      intro a b ha hb hP
      by_cases hai : a.1 = i
      · have haC : a = (i, Ci) := eq_of_key_mem_nodup s.cliques hkeys a (i, Ci) ha hCi hai
        by_cases hbi : b.1 = i
        · have hbC : b = (i, Ci) := eq_of_key_mem_nodup s.cliques hkeys b (i, Ci) hb hCi hbi
          exfalso
          obtain ⟨n0, hn0⟩ :=
            List.exists_mem_of_ne_nil Ci.nodes ((hent _ hCi).2.2).2.1
          exact hP n0 (by rw [haC]; exact hn0) (by rw [hbC]; exact hn0)
        · rw [haC] at hP ⊢
          simp only [if_pos rfl, if_neg hbi]
          intro n hn
          rcases clique_add_nodes_sub _ _ _ _ _ hn with h | rfl | rfl
          · exact hP n h
          · rcases hlcond with h2 | h2
            · exact hP n h2
            · exact h2 b hb
          · rcases hrcond with h2 | h2
            · exact hP n h2
            · exact h2 b hb
      · by_cases hbi : b.1 = i
        · have hbC : b = (i, Ci) := eq_of_key_mem_nodup s.cliques hkeys b (i, Ci) hb hCi hbi
          rw [hbC] at hP ⊢
          simp only [if_neg hai, if_pos rfl]
          intro n hn hmem
          rcases clique_add_nodes_sub _ _ _ _ _ hmem with h | rfl | rfl
          · exact hP n hn h
          · rcases hlcond with h2 | h2
            · exact hP n hn h2
            · exact h2 a ha hn
          · rcases hrcond with h2 | h2
            · exact hP n hn h2
            · exact h2 a ha hn
        · simp only [if_neg hai, if_neg hbi]
          exact hP
    exact hgoal

theorem wfs_merge_branch (s : Cliques) (l r : String) (ppm : Nat) (lc rc : Nat)
    (hwf : Cliques.WFs s) (hne : lc ≠ rc)
    (Clc Crc : Clique) (hql : (lc, Clc) ∈ s.cliques) (hqr : (rc, Crc) ∈ s.cliques)
    (hlm : l ∈ Clc.nodes) (hrm : r ∈ Crc.nodes) :
    Cliques.WFs
      { s with cliques :=
          (Cliques.updateC (removeA s.cliques rc) lc
            (fun c => (c.merge ((lookupA s.cliques rc).getD default)).add l r ppm)) } := by
  obtain ⟨hent, hkeys, hdisj⟩ := hwf
  have hlook : lookupA s.cliques rc = some Crc := lookupA_of_mem_nodup _ _ _ hqr hkeys
  simp only [hlook, Option.getD_some]
  have hWFlc : Clique.WFc Clc := (hent _ hql).2.2
  have hWFrc : Clique.WFc Crc := (hent _ hqr).2.2
  have hfnodes : ∀ n, n ∈ ((Clc.merge Crc).add l r ppm).nodes →
      n ∈ Clc.nodes ∨ n ∈ Crc.nodes := by
    intro n hn
    rcases clique_add_nodes_sub _ _ _ _ _ hn with h | rfl | rfl
    · exact (clique_merge_nodes_iff Clc Crc hWFlc hWFrc n).mp h
    · exact Or.inl hlm
    · exact Or.inr hrm
  have hforall := hdisj.forall disj_symm
  have hsub := removeA_sublist s.cliques rc
  have hkeys2 : ((removeA s.cliques rc).map Prod.fst).Nodup :=
    hkeys.sublist (hsub.map Prod.fst)
  have hdisj2 := hdisj.sublist hsub
  refine ⟨?_, ?_, ?_⟩
  · intro q hq
    rcases mem_updateC (removeA s.cliques rc) lc
        (fun c => (c.merge Crc).add l r ppm) q hq with ⟨hold, hkne⟩ | ⟨v, hv, rfl⟩
    · exact hent q ((mem_removeA _ _ _).mp hold).1
    · have hv0 : (lc, v) ∈ s.cliques := ((mem_removeA _ _ _).mp hv).1
      refine ⟨?_, (hent _ hv0).2.1,
        clique_add_wfc _ _ _ _ (clique_merge_wfc _ _ (hent _ hv0).2.2)⟩
      show ((v.merge Crc).add l r ppm).id = lc
      rw [clique_add_id, clique_merge_id]
      exact (hent _ hv0).1
  · have hgoal : ((Cliques.updateC (removeA s.cliques rc) lc
        (fun c => (c.merge Crc).add l r ppm)).map Prod.fst).Nodup := by
      rw [updateC_keys]
      exact hkeys2
    exact hgoal
  · have hgoal : (Cliques.updateC (removeA s.cliques rc) lc
        (fun c => (c.merge Crc).add l r ppm)).Pairwise
        (fun q1 q2 => ∀ n, n ∈ q1.2.nodes → n ∉ q2.2.nodes) := by
      unfold Cliques.updateC
      rw [List.pairwise_map]
      refine hdisj2.imp_of_mem ?_
      intro a b ha hb hP
      have ha0 : a ∈ s.cliques := ((mem_removeA _ _ _).mp ha).1
      have hb0 : b ∈ s.cliques := ((mem_removeA _ _ _).mp hb).1
      have harc : a.1 ≠ rc := ((mem_removeA _ _ _).mp ha).2
      have hbrc : b.1 ≠ rc := ((mem_removeA _ _ _).mp hb).2
      by_cases hai : a.1 = lc
      · have haC : a = (lc, Clc) :=
          eq_of_key_mem_nodup s.cliques hkeys a (lc, Clc) ha0 hql hai
        by_cases hbi : b.1 = lc
        · have hbC : b = (lc, Clc) :=
            eq_of_key_mem_nodup s.cliques hkeys b (lc, Clc) hb0 hql hbi
          exfalso
          obtain ⟨n0, hn0⟩ := List.exists_mem_of_ne_nil Clc.nodes hWFlc.2.1
          exact hP n0 (by rw [haC]; exact hn0) (by rw [hbC]; exact hn0)
        · rw [haC] at hP ⊢
          simp only [if_pos rfl, if_neg hbi]
          intro n hn
          rcases hfnodes n hn with h | h
          · exact hP n h
          · have hbne : (rc, Crc) ≠ b := fun hc => hbrc (by rw [← hc])
            exact hforall hqr hb0 hbne n h
      · by_cases hbi : b.1 = lc
        · have hbC : b = (lc, Clc) :=
            eq_of_key_mem_nodup s.cliques hkeys b (lc, Clc) hb0 hql hbi
          rw [hbC] at hP ⊢
          simp only [if_neg hai, if_pos rfl]
          intro n hn hmem
          rcases hfnodes n hmem with h | h
          · exact hP n hn h
          · have hane : (rc, Crc) ≠ a := fun hc => harc (by rw [← hc])
            exact hforall hqr ha0 hane n h hn
        · simp only [if_neg hai, if_neg hbi]
          exact hP
    exact hgoal

theorem wfs_append_new (s : Cliques) (l r : String) (ppm : Nat) (hwf : Cliques.WFs s)
    (hl : ∀ q ∈ s.cliques, l ∉ q.2.nodes) (hr : ∀ q ∈ s.cliques, r ∉ q.2.nodes) :
    Cliques.WFs
      { cliques := s.cliques ++ [(s.base_id, Clique.new l r ppm s.base_id)]
        base_id := s.base_id + 1 } := by
  obtain ⟨hent, hkeys, hdisj⟩ := hwf
  refine ⟨?_, ?_, ?_⟩
  · intro q hq
    rcases List.mem_append.mp hq with h | h
    · obtain ⟨h1, h2, h3⟩ := hent q h
      exact ⟨h1, Nat.lt_succ_of_lt h2, h3⟩
    · rcases List.mem_singleton.mp h with rfl
      exact ⟨clique_new_id l r ppm s.base_id, Nat.lt_succ_self _, clique_new_wfc l r ppm _⟩
  · have hgoal : ((s.cliques ++ [(s.base_id, Clique.new l r ppm s.base_id)]).map
        Prod.fst).Nodup := by
      rw [List.map_append, List.nodup_append]
      refine ⟨hkeys, List.nodup_singleton _, ?_⟩
      intro x hx hx2
      have hxb : x = s.base_id := by simpa using hx2
      obtain ⟨q, hq, hq2⟩ := List.mem_map.mp hx
      have := (hent q hq).2.1
      rw [hq2, hxb] at this
      omega
    exact hgoal
  · have hgoal : (s.cliques ++ [(s.base_id, Clique.new l r ppm s.base_id)]).Pairwise
        (fun q1 q2 => ∀ n, n ∈ q1.2.nodes → n ∉ q2.2.nodes) := by
      rw [List.pairwise_append]
      refine ⟨hdisj, List.pairwise_singleton _ _, ?_⟩
      intro a ha b hb
      rcases List.mem_singleton.mp hb with rfl
      intro n hna hnb
      rcases (clique_new_nodes l r ppm s.base_id n).mp hnb with rfl | rfl
      · exact hl a ha hna
      · exact hr a ha hna
    exact hgoal

theorem cliques_add_wfs (s : Cliques) (l r : String) (ppm : Nat) (hwf : Cliques.WFs s) :
    Cliques.WFs (s.add l r ppm) := by
  have hids : ∀ q ∈ s.cliques, q.2.id = q.1 := fun q hq => (hwf.1 q hq).1
  have hkeys : (s.cliques.map Prod.fst).Nodup := hwf.2.1
  rcases hfl : s.find_id_of_clique_containing l with _ | lc <;>
    rcases hfr : s.find_id_of_clique_containing r with _ | rc
  · have hgoal : s.add l r ppm =
        { cliques := s.cliques ++ [(s.base_id, Clique.new l r ppm s.base_id)]
          base_id := s.base_id + 1 } := by
      unfold Cliques.add
      rw [hfl, hfr]
    rw [hgoal]
    exact wfs_append_new s l r ppm hwf ((find_id_none_iff s l).mp hfl)
      ((find_id_none_iff s r).mp hfr)
  · obtain ⟨q, hq, hkey, hrmem⟩ := find_id_some s r rc hids hfr
    have hq2 : (rc, q.2) ∈ s.cliques := by
      rw [← hkey, Prod.mk.eta]
      exact hq
    have hgoal : s.add l r ppm =
        { s with cliques := Cliques.updateC s.cliques rc fun c => c.add l r ppm } := by
      unfold Cliques.add
      rw [hfl, hfr]
    rw [hgoal]
    exact wfs_update_add s rc l r ppm hwf q.2 hq2
      (Or.inr ((find_id_none_iff s l).mp hfl)) (Or.inl hrmem)
  · obtain ⟨q, hq, hkey, hlmem⟩ := find_id_some s l lc hids hfl
    have hq2 : (lc, q.2) ∈ s.cliques := by
      rw [← hkey, Prod.mk.eta]
      exact hq
    have hgoal : s.add l r ppm =
        { s with cliques := Cliques.updateC s.cliques lc fun c => c.add l r ppm } := by
      unfold Cliques.add
      rw [hfl, hfr]
    rw [hgoal]
    exact wfs_update_add s lc l r ppm hwf q.2 hq2 (Or.inl hlmem)
      (Or.inr ((find_id_none_iff s r).mp hfr))
  · obtain ⟨ql, hql, hkeyl, hlmem⟩ := find_id_some s l lc hids hfl
    obtain ⟨qr, hqr, hkeyr, hrmem⟩ := find_id_some s r rc hids hfr
    have hql2 : (lc, ql.2) ∈ s.cliques := by
      rw [← hkeyl, Prod.mk.eta]
      exact hql
    have hqr2 : (rc, qr.2) ∈ s.cliques := by
      rw [← hkeyr, Prod.mk.eta]
      exact hqr
    have hstep : s.add l r ppm =
        if lc ≠ rc then
          { s with cliques :=
              (Cliques.updateC (removeA s.cliques rc) lc
                (fun c => (c.merge ((lookupA s.cliques rc).getD default)).add l r ppm)) }
        else
          { s with cliques := Cliques.updateC s.cliques lc fun c => c.add l r ppm } := by
      unfold Cliques.add
      rw [hfl, hfr]
    by_cases hlr : lc = rc
    · rw [hstep, if_neg (fun h => h hlr)]
      have hentries : (rc, qr.2) = (lc, ql.2) :=
        eq_of_key_mem_nodup s.cliques hkeys (rc, qr.2) (lc, ql.2) hqr2 hql2
          (by rw [hlr])
      have hrmem2 : r ∈ ql.2.nodes := by
        have h2 := congrArg Prod.snd hentries
        rwa [h2] at hrmem
      exact wfs_update_add s lc l r ppm hwf ql.2 hql2 (Or.inl hlmem) (Or.inl hrmem2)
    · rw [hstep, if_pos hlr]
      exact wfs_merge_branch s l r ppm lc rc hwf hlr ql.2 qr.2 hql2 hqr2 hlmem hrmem

theorem wfs_new (base : Nat) : Cliques.WFs (Cliques.new base) := by
  refine ⟨?_, ?_, ?_⟩ <;> simp [Cliques.new]

theorem wfs_applyOps (base : Nat) (ops : List (String × String × Nat)) :
    Cliques.WFs (applyOps base ops) := by
  unfold applyOps
  have h : ∀ (ops2 : List (String × String × Nat)) (s : Cliques), Cliques.WFs s →
      Cliques.WFs (ops2.foldl (fun s2 e => s2.add e.1 e.2.1 e.2.2) s) := by
    intro ops2
    induction ops2 with
    | nil => intro s hs; exact hs
    | cons e t ih =>
      intro s hs
      exact ih _ (cliques_add_wfs _ _ _ _ hs)
  exact h ops _ (wfs_new base)

/-- C9: starting from a fresh clique set, the member sets of distinct
cliques remain pairwise disjoint after every sequence of `CliqueSet::add`
operations — each name belongs to at most one clique. -/
theorem claim_C9 (base : Nat) (ops : List (String × String × Nat)) :
    (applyOps base ops).cliques.Pairwise
      (fun q1 q2 => ∀ n, n ∈ q1.2.nodes → n ∉ q2.2.nodes) :=
  (wfs_applyOps base ops).2.2

/-! ### Claim C6: classification and content of the diff export -/

theorem find_containing_eq (xs : List (Nat × Clique))
    (hdisj : xs.Pairwise fun q1 q2 => ∀ n, n ∈ q1.2.nodes → n ∉ q2.2.nodes)
    (q : Nat × Clique) (hq : q ∈ xs) (n : String) (hn : n ∈ q.2.nodes) :
    xs.find? (fun p => p.2.containsName n) = some q := by
  induction xs with
  | nil => cases hq
  | cons h t ih =>
    rcases List.mem_cons.mp hq with rfl | hm
    · exact List.find?_cons_of_pos _ (by simpa [Clique.containsName] using hn)
    · have hhn : ¬ (n ∈ h.2.nodes) := by
        intro hcon
        exact (List.rel_of_pairwise_cons hdisj hm) n hcon hn
      rw [List.find?_cons_of_neg _ (by simpa [Clique.containsName] using hhn)]
      exact ih (List.Pairwise.of_cons hdisj) hm

theorem mem_foldl_insertS {κ : Type} [DecidableEq κ] (xs : List κ) :
    ∀ (acc : List κ) (x : κ), x ∈ xs.foldl insertS acc ↔ x ∈ acc ∨ x ∈ xs := by
  induction xs with
  | nil => intro acc x; simp
  | cons a t ih =>
    intro acc x
    show x ∈ t.foldl insertS (insertS acc a) ↔ _
    rw [ih, mem_insertS]
    simp only [List.mem_cons]
    constructor
    · rintro ((h | rfl) | h)
      · exact Or.inl h
      · exact Or.inr (Or.inl rfl)
      · exact Or.inr (Or.inr h)
    · rintro (h | (rfl | h))
      · exact Or.inl (Or.inl h)
      · exact Or.inl (Or.inr rfl)
      · exact Or.inr h

theorem nodup_foldl_insertS {κ : Type} [DecidableEq κ] (xs : List κ) :
    ∀ (acc : List κ), acc.Nodup → (xs.foldl insertS acc).Nodup := by
  induction xs with
  | nil => intro acc h; exact h
  | cons a t ih => intro acc h; exact ih _ (nodup_insertS _ _ h)

theorem foldl_insertS_nil_iff {κ : Type} [DecidableEq κ] (xs : List κ) :
    xs.foldl insertS [] = [] ↔ xs = [] := by
  constructor
  · intro h
    rw [List.eq_nil_iff_forall_not_mem]
    intro x hx
    have : x ∈ xs.foldl insertS [] := (mem_foldl_insertS xs [] x).mpr (Or.inr hx)
    rw [h] at this
    cases this
  · rintro rfl
    rfl

theorem intersects_iff (q c : Clique) :
    Clique.intersects q c = true ↔ ∃ n ∈ q.nodes, n ∈ c.nodes := by
  unfold Clique.intersects
  rw [List.any_eq_true]
  simp

theorem mergedIds_mem (prev : Cliques) (c : Clique) (hwf : Cliques.WFs prev) (i : Nat) :
    (i ∈ (c.nodes.filterMap fun n =>
        (prev.cliques.find? fun q => q.2.containsName n).map fun q => q.2.id)) ↔
      ∃ q ∈ prev.cliques, q.1 = i ∧ Clique.intersects q.2 c = true := by
  obtain ⟨hent, hkeys, hdisj⟩ := hwf
  rw [List.mem_filterMap]
  constructor
  · rintro ⟨n, hn, hfind⟩
    rcases hf : prev.cliques.find? fun q => q.2.containsName n with _ | q
    · rw [hf] at hfind
      cases hfind
    · rw [hf] at hfind
      have hq1 : q ∈ prev.cliques := List.mem_of_find?_eq_some hf
      have hq2 := List.find?_some hf
      have hq3 : n ∈ q.2.nodes := by simpa [Clique.containsName] using hq2
      refine ⟨q, hq1, ?_, (intersects_iff q.2 c).mpr ⟨n, hq3, hn⟩⟩
      have hid : q.2.id = i := by simpa using hfind
      rw [← hid]
      exact ((hent q hq1).1).symm
  · rintro ⟨q, hq, hqi, hint⟩
    obtain ⟨n, hnq, hnc⟩ := (intersects_iff q.2 c).mp hint
    refine ⟨n, hnc, ?_⟩
    rw [find_containing_eq prev.cliques hdisj q hq n hnq]
    show some q.2.id = some i
    rw [(hent q hq).1, hqi]

theorem ce_cmp_le_iff (e1 e2 : CliqueExport) :
    (e1.cmp_ppm e2 ≠ Ordering.gt) ↔ e1.max_ppm ≤ e2.max_ppm := by
  unfold CliqueExport.cmp_ppm
  rw [ne_eq, Nat.compare_eq_gt]
  omega

theorem merged_cliques_perm (prev : Cliques) (c : Clique) (hwf : Cliques.WFs prev) :
    List.Perm (Cliques.merged_cliques prev c)
      ((prev.cliques.filter fun q => Clique.intersects q.2 c).map fun q => q.2.export) := by
  obtain ⟨hent, hkeys, hdisj⟩ := hwf
  unfold Cliques.merged_cliques
  refine (List.perm_insertionSort _ _).trans ?_
  have hperm : List.Perm
      ((c.nodes.filterMap fun n =>
        (prev.cliques.find? fun q => q.2.containsName n).map fun q => q.2.id).foldl
          insertS [])
      ((prev.cliques.filter fun q => Clique.intersects q.2 c).map Prod.fst) := by
    refine (List.perm_ext_iff_of_nodup ?_ ?_).mpr ?_
    · exact nodup_foldl_insertS _ _ List.nodup_nil
    · exact hkeys.sublist ((List.filter_sublist prev.cliques).map Prod.fst)
    · intro i
      rw [mem_foldl_insertS]
      simp only [List.mem_nil_iff, false_or]
      rw [mergedIds_mem prev c ⟨hent, hkeys, hdisj⟩ i]
      rw [List.mem_map]
      constructor
      · rintro ⟨q, hq, hqi, hint⟩
        exact ⟨q, List.mem_filter.mpr ⟨hq, hint⟩, hqi⟩
      · rintro ⟨q, hqf, hqi⟩
        have := List.mem_filter.mp hqf
        exact ⟨q, this.1, hqi, this.2⟩
  refine (hperm.map _).trans ?_
  rw [List.map_map]
  apply List.Perm.of_eq
  apply List.map_congr_left
  intro q hq
  have hq2 : q ∈ prev.cliques := (List.mem_filter.mp hq).1
  show ((lookupA prev.cliques q.1).getD default).export = q.2.export
  rw [lookupA_of_mem_nodup prev.cliques q.1 q.2 (by rw [Prod.mk.eta]; exact hq2) hkeys]
  rfl

theorem merged_cliques_sorted (prev : Cliques) (c : Clique) :
    List.Pairwise (fun e1 e2 : CliqueExport => e1.max_ppm ≤ e2.max_ppm)
      (Cliques.merged_cliques prev c) := by
  haveI : IsTotal CliqueExport (fun e1 e2 => e1.cmp_ppm e2 ≠ Ordering.gt) := by
    constructor
    intro a b
    rw [ce_cmp_le_iff, ce_cmp_le_iff]
    omega
  haveI : IsTrans CliqueExport (fun e1 e2 => e1.cmp_ppm e2 ≠ Ordering.gt) := by
    constructor
    intro a b c2 h1 h2
    rw [ce_cmp_le_iff] at h1 h2 ⊢
    omega
  have hs : List.Pairwise (fun e1 e2 : CliqueExport => e1.cmp_ppm e2 ≠ Ordering.gt)
      (Cliques.merged_cliques prev c) := by
    unfold Cliques.merged_cliques
    exact List.sorted_insertionSort (fun e1 e2 : CliqueExport => e1.cmp_ppm e2 ≠ Ordering.gt) _
  exact hs.imp fun h => (ce_cmp_le_iff _ _).mp h

theorem added_members_perm (prev : Cliques) (c : Clique) :
    List.Perm (Cliques.added_members prev c)
      (c.nodes.filter fun n => !(prev.cliques.any fun q => q.2.containsName n)) :=
  List.perm_insertionSort _ _

theorem added_members_sorted (prev : Cliques) (c : Clique) :
    List.Sorted (fun a b => nameLe a b = true) (Cliques.added_members prev c) := by
  haveI : IsTotal String (fun a b => nameLe a b = true) := ⟨nameLe_total⟩
  haveI : IsTrans String (fun a b => nameLe a b = true) := ⟨fun _ _ _ => nameLe_trans⟩
  exact List.sorted_insertionSort (fun a b => nameLe a b = true) _

theorem merged_cliques_nil_iff (prev : Cliques) (c : Clique) :
    Cliques.merged_cliques prev c = [] ↔
      ∀ q ∈ prev.cliques, ∀ n ∈ q.2.nodes, n ∉ c.nodes := by
  unfold Cliques.merged_cliques
  constructor
  · intro h
    have hperm := List.perm_insertionSort
      (fun e1 e2 : CliqueExport => e1.cmp_ppm e2 ≠ Ordering.gt)
      (((c.nodes.filterMap fun n =>
        (prev.cliques.find? fun q => q.2.containsName n).map fun q => q.2.id).foldl
          insertS []).map fun i => ((lookupA prev.cliques i).getD default).export)
    rw [h] at hperm
    have hmap := hperm.symm.eq_nil
    have hdd := List.map_eq_nil_iff.mp hmap
    have hids := (foldl_insertS_nil_iff _).mp hdd
    have hall := List.filterMap_eq_nil_iff.mp hids
    intro q hq n hnq hnc
    have := hall n hnc
    rcases hf : prev.cliques.find? fun p => p.2.containsName n with _ | p
    · rw [List.find?_eq_none] at hf
      exact hf q hq (by simpa [Clique.containsName] using hnq)
    · rw [hf] at this
      cases this
  · intro h
    have hids : (c.nodes.filterMap fun n =>
        (prev.cliques.find? fun q => q.2.containsName n).map fun q => q.2.id) = [] := by
      rw [List.filterMap_eq_nil_iff]
      intro n hn
      rw [Option.map_eq_none', List.find?_eq_none]
      intro q hq
      simp only [Clique.containsName, decide_eq_true_eq]
      intro hcon
      exact h q hq n hcon hn
    rw [hids]
    rfl

/-- C6: against a reachable previous clique set, a current clique is
classified `New` exactly when no previous clique shares a member with it;
otherwise it is classified `Old` carrying `merged_cliques` and
`added_members`, where `merged` is a permutation of the exports of exactly
the intersecting previous cliques sorted ascending by maximum score, and
`added` is a permutation, sorted ascending, of the members contained in no
previous clique; the whole export list is a permutation of the per-clique
classifications. -/
theorem claim_C6 (base : Nat) (ops : List (String × String × Nat)) (cur : Cliques)
    (c : Clique) :
    ((Cliques.exportElem (applyOps base ops) c = CliquesExportElement.New c.export) ↔
      ∀ q ∈ (applyOps base ops).cliques, ∀ n ∈ q.2.nodes, n ∉ c.nodes) ∧
    (Cliques.exportElem (applyOps base ops) c = CliquesExportElement.New c.export ∨
      Cliques.exportElem (applyOps base ops) c =
        CliquesExportElement.Old c.export (Cliques.merged_cliques (applyOps base ops) c)
          (Cliques.added_members (applyOps base ops) c)) ∧
    List.Perm (Cliques.merged_cliques (applyOps base ops) c)
      (((applyOps base ops).cliques.filter fun q => Clique.intersects q.2 c).map
        fun q => q.2.export) ∧
    List.Pairwise (fun e1 e2 : CliqueExport => e1.max_ppm ≤ e2.max_ppm)
      (Cliques.merged_cliques (applyOps base ops) c) ∧
    List.Perm (Cliques.added_members (applyOps base ops) c)
      (c.nodes.filter fun n =>
        !((applyOps base ops).cliques.any fun q => q.2.containsName n)) ∧
    List.Sorted (fun a b => nameLe a b = true)
      (Cliques.added_members (applyOps base ops) c) ∧
    List.Perm ((cur.export (applyOps base ops)).cliques)
      (cur.cliques.map fun q => Cliques.exportElem (applyOps base ops) q.2) := by
  have hwf := wfs_applyOps base ops
  refine ⟨?_, ?_, merged_cliques_perm _ c hwf, merged_cliques_sorted _ c,
    added_members_perm _ c, added_members_sorted _ c, ?_⟩
  · unfold Cliques.exportElem
    by_cases hmt : (Cliques.merged_cliques (applyOps base ops) c).isEmpty = true
    · rw [if_pos hmt]
      simp only [true_iff]
      exact (merged_cliques_nil_iff _ c).mp (List.isEmpty_iff.mp hmt)
    · rw [if_neg hmt]
      constructor
      · intro hcon
        cases hcon
      · intro h
        exfalso
        exact hmt (List.isEmpty_iff.mpr ((merged_cliques_nil_iff _ c).mpr h))
  · unfold Cliques.exportElem
    by_cases hmt : (Cliques.merged_cliques (applyOps base ops) c).isEmpty = true
    · rw [if_pos hmt]
      exact Or.inl rfl
    · rw [if_neg hmt]
      exact Or.inr rfl
  · unfold Cliques.export
    exact List.perm_insertionSort _ _


/-! ### Claim C1 (amended): the boundary walk of the driver -/

theorem foldMax_perm {A : Type} (g : A -> Nat) {l1 l2 : List A} (h : List.Perm l1 l2) :
    forall b, l1.foldl (fun acc e => max acc (g e)) b =
      l2.foldl (fun acc e => max acc (g e)) b := by
  induction h with
  | nil => intro b; rfl
  | cons x h ih =>
    intro b
    simp only [List.foldl_cons]
    exact ih _
  | swap x y l =>
    intro b
    simp only [List.foldl_cons]
    have hsw : max (max b (g y)) (g x) = max (max b (g x)) (g y) := by omega
    rw [hsw]
  | trans h1 h2 ih1 ih2 =>
    intro b
    rw [ih1, ih2]

theorem foldMax_mul {A : Type} (g : A -> Nat) (l : List A) :
    forall a, l.foldl (fun acc e => max acc (10000 * g e)) (10000 * a) =
      10000 * l.foldl (fun acc e => max acc (g e)) a := by
  induction l with
  | nil => intro a; rfl
  | cons x t ih =>
    intro a
    simp only [List.foldl_cons]
    have hm : max (10000 * a) (10000 * g x) = 10000 * max a (g x) := by omega
    rw [hm]
    exact ih _

theorem bumpGo_spec : forall (fuel ppm m : Nat) (prev cur : Cliques)
    (out : List (Nat × CliquesExport)),
    ppm - m ≤ fuel -> m % 10000 = 0 ->
    out.map Prod.fst = (List.range (m / 10000)).map (fun b => b * 10000) ->
    (bumpGo fuel ppm m prev cur out).1 = max m (10000 * ((ppm + 9999) / 10000)) ∧
    (bumpGo fuel ppm m prev cur out).2.2.map Prod.fst =
      (List.range ((bumpGo fuel ppm m prev cur out).1 / 10000)).map
        (fun b => b * 10000) := by
  intro fuel
  induction fuel with
  | zero =>
    intro ppm m prev cur out hf hm hout
    have hle : ppm ≤ m := by omega
    have h1 : bumpGo 0 ppm m prev cur out = (m, prev, out) := rfl
    rw [h1]
    constructor
    · show m = max m (10000 * ((ppm + 9999) / 10000))
      omega
    · show out.map Prod.fst = (List.range (m / 10000)).map (fun b => b * 10000)
      exact hout
  | succ n ih =>
    intro ppm m prev cur out hf hm hout
    by_cases hgt : ppm > m
    · have h1 : bumpGo (n + 1) ppm m prev cur out =
          bumpGo n ppm (m + 10000) cur cur (out ++ [(m, cur.export prev)]) := by
        simp only [bumpGo]
        rw [if_pos hgt]
      rw [h1]
      have hf2 : ppm - (m + 10000) ≤ n := by omega
      have hm2 : (m + 10000) % 10000 = 0 := by omega
      have hout2 : (out ++ [(m, cur.export prev)]).map Prod.fst =
          (List.range ((m + 10000) / 10000)).map (fun b => b * 10000) := by
        have hq : (m + 10000) / 10000 = m / 10000 + 1 := by omega
        rw [List.map_append, hout, hq, List.range_succ, List.map_append]
        simp only [List.map_cons, List.map_nil]
        have hmm : m / 10000 * 10000 = m := by omega
        rw [hmm]
      have hrec := ih ppm (m + 10000) cur cur (out ++ [(m, cur.export prev)]) hf2 hm2 hout2
      refine ⟨?_, hrec.2⟩
      rw [hrec.1]
      omega
    · have h1 : bumpGo (n + 1) ppm m prev cur out = (m, prev, out) := by
        simp only [bumpGo]
        rw [if_neg hgt]
      rw [h1]
      constructor
      · show m = max m (10000 * ((ppm + 9999) / 10000))
        omega
      · show out.map Prod.fst = (List.range (m / 10000)).map (fun b => b * 10000)
        exact hout

theorem runEdges_spec : forall (es : List (String × String × Nat)) (m : Nat)
    (prev cur : Cliques) (out : List (Nat × CliquesExport)),
    m % 10000 = 0 ->
    out.map Prod.fst = (List.range (m / 10000)).map (fun b => b * 10000) ->
    (runEdges es m prev cur out).1 =
      es.foldl (fun acc e => max acc (10000 * ((e.2.2 + 9999) / 10000))) m ∧
    (runEdges es m prev cur out).1 % 10000 = 0 ∧
    (runEdges es m prev cur out).2.2.2.map Prod.fst =
      (List.range ((runEdges es m prev cur out).1 / 10000)).map
        (fun b => b * 10000) := by
  intro es
  induction es with
  | nil =>
    intro m prev cur out hm hout
    exact ⟨rfl, hm, hout⟩
  | cons e t ih =>
    intro m prev cur out hm hout
    have h1 : runEdges (e :: t) m prev cur out =
        runEdges t (bump e.2.2 m prev cur out).1 (bump e.2.2 m prev cur out).2.1
          (cur.add e.1 e.2.1 e.2.2) (bump e.2.2 m prev cur out).2.2 := by
      simp only [runEdges]
    rw [h1]
    have hb := bumpGo_spec (e.2.2 - m) e.2.2 m prev cur out (Nat.le_refl _) hm hout
    have hb1 : (bump e.2.2 m prev cur out).1 =
        max m (10000 * ((e.2.2 + 9999) / 10000)) := hb.1
    have hbm : (bump e.2.2 m prev cur out).1 % 10000 = 0 := by
      rw [hb1]
      omega
    have hbout : (bump e.2.2 m prev cur out).2.2.map Prod.fst =
        (List.range ((bump e.2.2 m prev cur out).1 / 10000)).map
          (fun b => b * 10000) := hb.2
    have hrec := ih (bump e.2.2 m prev cur out).1 (bump e.2.2 m prev cur out).2.1
      (cur.add e.1 e.2.1 e.2.2) (bump e.2.2 m prev cur out).2.2 hbm hbout
    refine ⟨?_, hrec.2.1, hrec.2.2⟩
    rw [hrec.1, hb1, List.foldl_cons]

theorem runEdges_cur : forall (es : List (String × String × Nat)) (m : Nat)
    (prev cur : Cliques) (out : List (Nat × CliquesExport)),
    (runEdges es m prev cur out).2.2.1 =
      es.foldl (fun s e => s.add e.1 e.2.1 e.2.2) cur := by
  intro es
  induction es with
  | nil => intro m prev cur out; rfl
  | cons e t ih =>
    intro m prev cur out
    have h1 : runEdges (e :: t) m prev cur out =
        runEdges t (bump e.2.2 m prev cur out).1 (bump e.2.2 m prev cur out).2.1
          (cur.add e.1 e.2.1 e.2.2) (bump e.2.2 m prev cur out).2.2 := by
      simp only [runEdges]
    rw [h1, ih, List.foldl_cons]

theorem driver_boundaries (es : List (String × String × Nat)) (lim : Nat) :
    (driver es lim).map Prod.fst =
      (List.range
        ((es.filter fun e => decide (e.2.2 ≤ lim)).foldl
          (fun acc e => max acc ((e.2.2 + 9999) / 10000)) 0 + 1)).map
        (fun b => b * 10000) := by
  have hrun := runEdges_spec
    ((es.filter fun e => decide (e.2.2 ≤ lim)).insertionSort fun a b => a.2.2 ≤ b.2.2)
    0 (Cliques.new 0) (Cliques.new 0) [] rfl rfl
  obtain ⟨h1, _h2, h3⟩ := hrun
  have hdr : driver es lim =
      (runEdges
        ((es.filter fun e => decide (e.2.2 ≤ lim)).insertionSort fun a b => a.2.2 ≤ b.2.2)
        0 (Cliques.new 0) (Cliques.new 0) []).2.2.2 ++
      [((runEdges
          ((es.filter fun e => decide (e.2.2 ≤ lim)).insertionSort fun a b => a.2.2 ≤ b.2.2)
          0 (Cliques.new 0) (Cliques.new 0) []).1,
        (runEdges
          ((es.filter fun e => decide (e.2.2 ≤ lim)).insertionSort fun a b => a.2.2 ≤ b.2.2)
          0 (Cliques.new 0) (Cliques.new 0) []).2.2.1.export
        (runEdges
          ((es.filter fun e => decide (e.2.2 ≤ lim)).insertionSort fun a b => a.2.2 ≤ b.2.2)
          0 (Cliques.new 0) (Cliques.new 0) []).2.1)] := rfl
  rw [hdr, List.map_append, h3]
  simp only [List.map_cons, List.map_nil]
  have hperm : List.Perm
      ((es.filter fun e => decide (e.2.2 ≤ lim)).insertionSort fun a b => a.2.2 ≤ b.2.2)
      (es.filter fun e => decide (e.2.2 ≤ lim)) :=
    List.perm_insertionSort _ _
  have hfold := foldMax_perm (fun e : String × String × Nat => 10000 * ((e.2.2 + 9999) / 10000))
    hperm 0
  have hmul := foldMax_mul (fun e : String × String × Nat => (e.2.2 + 9999) / 10000)
    (es.filter fun e => decide (e.2.2 ≤ lim)) 0
  rw [h1, hfold]
  have hz : (10000 : Nat) * 0 = 0 := rfl
  rw [← hz, hmul]
  have hq : forall n : Nat, 10000 * n / 10000 = n := by intro n; omega
  rw [hq, List.range_succ, List.map_append]
  simp only [List.map_cons, List.map_nil]
  rw [Nat.mul_comm]

theorem lookupA_mem {κ α : Type} [DecidableEq κ] (xs : List (κ × α)) (k : κ) (v : α)
    (h : lookupA xs k = some v) : (k, v) ∈ xs := by
  unfold lookupA at h
  rcases hf : xs.find? (fun p => decide (p.1 = k)) with _ | p
  · rw [hf] at h
    cases h
  · rw [hf] at h
    have hv : p.2 = v := Option.some.inj h
    have hp : p ∈ xs := List.mem_of_find?_eq_some hf
    have hpk := List.find?_some hf
    have hk : p.1 = k := by simpa using hpk
    rw [← hk, ← hv, Prod.mk.eta]
    exact hp

theorem clique_add_edges_le (c : Clique) (l r : String) (ppm lim : Nat)
    (hc : forall e, e ∈ c.edges -> e.2 ≤ lim) (hp : ppm ≤ lim) :
    forall e, e ∈ (Clique.add c l r ppm).edges -> e.2 ≤ lim := by
  intro e he
  unfold Clique.add at he
  by_cases hs : (lookupA c.edges (edgeKey l r)).isSome = true
  · rw [if_pos hs] at he
    rcases mem_insertA c.edges (edgeKey l r) ppm e he with he2 | he2
    · rw [he2]
      exact hp
    · exact hc e he2
  · rw [if_neg hs] at he
    rcases List.mem_append.mp he with he2 | he2
    · exact hc e he2
    · rw [List.mem_singleton.mp he2]
      exact hp

theorem foldAdd_edges_le (lim : Nat) : forall (E : List ((String × String) × Nat)) (c : Clique),
    (forall e, e ∈ E -> e.2 ≤ lim) -> (forall e, e ∈ c.edges -> e.2 ≤ lim) ->
    forall e, e ∈ (E.foldl (fun acc e => acc.add e.1.1 e.1.2 e.2) c).edges -> e.2 ≤ lim := by
  intro E
  induction E with
  | nil => intro c hE hc; exact hc
  | cons x t ih =>
    intro c hE hc
    rw [List.foldl_cons]
    exact ih _ (fun e he => hE e (List.mem_cons_of_mem _ he))
      (clique_add_edges_le c x.1.1 x.1.2 x.2 lim hc (hE x (List.mem_cons_self _ _)))

theorem clique_merge_edges_le (c o : Clique) (lim : Nat)
    (hc : forall e, e ∈ c.edges -> e.2 ≤ lim) (ho : forall e, e ∈ o.edges -> e.2 ≤ lim) :
    forall e, e ∈ (c.merge o).edges -> e.2 ≤ lim := by
  unfold Clique.merge
  exact foldAdd_edges_le lim o.edges c ho hc

theorem cliques_add_edges_le (s : Cliques) (l r : String) (ppm lim : Nat)
    (hs : forall q, q ∈ s.cliques -> forall e, e ∈ q.2.edges -> e.2 ≤ lim)
    (hp : ppm ≤ lim) :
    forall q, q ∈ (s.add l r ppm).cliques -> forall e, e ∈ q.2.edges -> e.2 ≤ lim := by
  rcases hfl : s.find_id_of_clique_containing l with _ | lc <;>
    rcases hfr : s.find_id_of_clique_containing r with _ | rc
  · have hgoal : s.add l r ppm =
        { cliques := s.cliques ++ [(s.base_id, Clique.new l r ppm s.base_id)]
          base_id := s.base_id + 1 } := by
      unfold Cliques.add
      rw [hfl, hfr]
    rw [hgoal]
    intro q hq
    rcases List.mem_append.mp hq with hq2 | hq2
    · exact hs q hq2
    · rw [List.mem_singleton.mp hq2]
      intro e he
      unfold Clique.new at he
      exact clique_add_edges_le ⟨[], [], s.base_id⟩ l r ppm lim
        (fun e2 he2 => absurd he2 (List.not_mem_nil _)) hp e he
  · have hgoal : s.add l r ppm =
        { s with cliques := Cliques.updateC s.cliques rc fun c => c.add l r ppm } := by
      unfold Cliques.add
      rw [hfl, hfr]
    rw [hgoal]
    intro q hq
    rcases mem_updateC s.cliques rc (fun c => c.add l r ppm) q hq with ⟨hq2, _⟩ | ⟨v, hv, hq2⟩
    · exact hs q hq2
    · rw [hq2]
      exact clique_add_edges_le v l r ppm lim (hs (rc, v) hv) hp
  · have hgoal : s.add l r ppm =
        { s with cliques := Cliques.updateC s.cliques lc fun c => c.add l r ppm } := by
      unfold Cliques.add
      rw [hfl, hfr]
    rw [hgoal]
    intro q hq
    rcases mem_updateC s.cliques lc (fun c => c.add l r ppm) q hq with ⟨hq2, _⟩ | ⟨v, hv, hq2⟩
    · exact hs q hq2
    · rw [hq2]
      exact clique_add_edges_le v l r ppm lim (hs (lc, v) hv) hp
  · have hstep : s.add l r ppm =
        if lc ≠ rc then
          { s with cliques :=
              (Cliques.updateC (removeA s.cliques rc) lc
                (fun c => (c.merge ((lookupA s.cliques rc).getD default)).add l r ppm)) }
        else
          { s with cliques := Cliques.updateC s.cliques lc fun c => c.add l r ppm } := by
      unfold Cliques.add
      rw [hfl, hfr]
    by_cases hlr : lc = rc
    · rw [hstep, if_neg (fun h => h hlr)]
      intro q hq
      rcases mem_updateC s.cliques lc (fun c => c.add l r ppm) q hq with ⟨hq2, _⟩ | ⟨v, hv, hq2⟩
      · exact hs q hq2
      · rw [hq2]
        exact clique_add_edges_le v l r ppm lim (hs (lc, v) hv) hp
    · rw [hstep, if_pos hlr]
      intro q hq
      rcases mem_updateC (removeA s.cliques rc) lc
        (fun c => (c.merge ((lookupA s.cliques rc).getD default)).add l r ppm) q hq with ⟨hq2, _⟩ | ⟨v, hv, hq2⟩
      · exact hs q ((mem_removeA s.cliques rc q).mp hq2).1
      · rw [hq2]
        have hvb : forall e, e ∈ v.edges -> e.2 ≤ lim :=
          hs (lc, v) ((mem_removeA s.cliques rc (lc, v)).mp hv).1
        have hob : forall e, e ∈ ((lookupA s.cliques rc).getD default).edges -> e.2 ≤ lim := by
          rcases hl : lookupA s.cliques rc with _ | w
          · intro e he
            exact absurd he (List.not_mem_nil e)
          · exact hs (rc, w) (lookupA_mem s.cliques rc w hl)
        exact clique_add_edges_le (v.merge ((lookupA s.cliques rc).getD default)) l r ppm lim
          (clique_merge_edges_le v _ lim hvb hob) hp

theorem foldCliquesAdd_edges_le (lim : Nat) :
    forall (ops : List (String × String × Nat)) (s : Cliques),
    (forall e, e ∈ ops -> e.2.2 ≤ lim) ->
    (forall q, q ∈ s.cliques -> forall e, e ∈ q.2.edges -> e.2 ≤ lim) ->
    forall q, q ∈ (ops.foldl (fun s2 e => s2.add e.1 e.2.1 e.2.2) s).cliques ->
      forall e, e ∈ q.2.edges -> e.2 ≤ lim := by
  intro ops
  induction ops with
  | nil => intro s hops hs; exact hs
  | cons x t ih =>
    intro s hops hs
    rw [List.foldl_cons]
    exact ih _ (fun e he => hops e (List.mem_cons_of_mem _ he))
      (cliques_add_edges_le s x.1 x.2.1 x.2.2 lim hs (hops x (List.mem_cons_self _ _)))

theorem driverFinal_edges_le (es : List (String × String × Nat)) (lim : Nat) :
    forall q, q ∈ (driverFinal es lim).cliques -> forall e, e ∈ q.2.edges -> e.2 ≤ lim := by
  have hdf : driverFinal es lim =
      (runEdges
        ((es.filter fun e => decide (e.2.2 ≤ lim)).insertionSort fun a b => a.2.2 ≤ b.2.2)
        0 (Cliques.new 0) (Cliques.new 0) []).2.2.1 := rfl
  rw [hdf, runEdges_cur]
  apply foldCliquesAdd_edges_le lim _ (Cliques.new 0)
  · intro e he
    have hmem : e ∈ es.filter fun e2 => decide (e2.2.2 ≤ lim) :=
      ((List.perm_insertionSort _ _).mem_iff).mp he
    have hdec := List.of_mem_filter hmem
    exact of_decide_eq_true hdec
  · intro q hq
    exact absurd hq (List.not_mem_nil q)

/-- C1 (amended): for every edge list and requested boundary limit, the
driver prints exactly one export per threshold boundary, in ascending order
of boundary: the emitted boundaries are `0, 10000, ...` up to and including
the first multiple of 10000 at or above the largest filtered edge score
(giving just boundary 0 when no edge passes the score filter); the
boundaries between that point and the requested limit are never emitted.
Moreover edges whose score exceeds the limit are filtered before the run,
so the final clique set holds no edge with score above the limit. -/
theorem claim_C1_amended (edges : List (String × String × Nat)) (ppmLimit : Nat) :
    (driver edges ppmLimit).map Prod.fst =
      (List.range
        ((edges.filter fun e => decide (e.2.2 ≤ ppmLimit)).foldl
          (fun acc e => max acc ((e.2.2 + 9999) / 10000)) 0 + 1)).map
        (fun b => b * 10000) ∧
    forall q, q ∈ (driverFinal edges ppmLimit).cliques ->
      forall e, e ∈ q.2.edges -> e.2 ≤ ppmLimit :=
  ⟨driver_boundaries edges ppmLimit, driverFinal_edges_le edges ppmLimit⟩


end Spec2
